import Mathlib

/-!
# LinWin10: desktop-entry parsing, catalog and tile models

A shallow embedding of the non-visual back end of the two programs of the
repository, `src/menu/main.cpp` (the launcher menu: `AppLauncher`, `TileModel`)
and `src/fixes/main.cpp` (the taskbar: `AppModel`, `RunningWindowModel`).

Conventions of the embedding:

* a `QString` (and a `QByteArray` holding text) is the list of its characters;
* a text file is the list of its lines, each without its line terminator;
  an unreadable file is `none`;
* a `while (!f.atEnd())` loop is a recursion over the remaining lines, its body a
  step function that returns `none` where the C++ body executes `break`;
* a model method returns the new list together with the signals it emitted, the
  JSON documents it handed to the persistence file and the helper processes it
  started, in program order.
-/

namespace LinWin10

/-! ## Strings -/

/-- Text of a `QString` or of a `QByteArray`, one `Char` per character. -/
abbrev QString := List Char

/-- Qt `startsWith`: `p` is an initial segment of `s`. -/
def startsWith : QString → QString → Bool
  | _, [] => true
  | [], _ :: _ => false
  | c :: s, p :: ps => c == p && startsWith s ps

/-- Qt `mid(n)`: everything from position `n` on. -/
def mid (s : QString) (n : Nat) : QString := s.drop n

/-- Removal of the characters satisfying `sp` from both ends. -/
def trimWith (sp : Char → Bool) (s : QString) : QString :=
  ((s.dropWhile sp).reverse.dropWhile sp).reverse

/-- White space of `QByteArray::trimmed`: tab, LF, VT, FF, CR and space. -/
def asciiIsSpace (c : Char) : Bool :=
  c.toNat == 32 || (9 ≤ c.toNat && c.toNat ≤ 13)

/-- White space of `QChar::isSpace`, used by `QString::trimmed`: the ASCII white
space, NEL, NBSP and the Unicode separators (Zs, Zl, Zp). -/
def qcharIsSpace (c : Char) : Bool :=
  c.toNat == 32 || (9 ≤ c.toNat && c.toNat ≤ 13) || c.toNat == 0x85 || c.toNat == 0xA0 ||
  c.toNat == 0x1680 || (0x2000 ≤ c.toNat && c.toNat ≤ 0x200A) || c.toNat == 0x2028 ||
  c.toNat == 0x2029 || c.toNat == 0x202F || c.toNat == 0x205F || c.toNat == 0x3000

/-- Model of `QByteArray::trimmed`, applied to the bytes `readLine` returns. -/
def trimmedBytes (s : QString) : QString := trimWith asciiIsSpace s

/-- Model of `QString::trimmed`. -/
def trimmed (s : QString) : QString := trimWith qcharIsSpace s

/-- The letters of the character class in `%[UuFfDdNnVvMm]`. -/
def isFieldCodeLetter (c : Char) : Bool := "UuFfDdNnVvMm".toList.contains c

/-- Model of `s.replace(QRegularExpression("%[UuFfDdNnVvMm]"), "")`: one left-to-right pass
that deletes every match of the two-character pattern; the search resumes after
each match. -/
def stripFieldCodes : QString → QString
  | [] => []
  | [c] => [c]
  | c :: d :: rest =>
    if c == '%' && isFieldCodeLetter d then stripFieldCodes rest
    else c :: stripFieldCodes (d :: rest)

/-- A field-code token occurs in `s`: a `%` immediately followed by one of the
letters U, u, F, f, D, d, N, n, V, v, M, m. -/
def hasFieldCode : QString → Bool
  | [] => false
  | [_] => false
  | c :: d :: rest => (c == '%' && isFieldCodeLetter d) || hasFieldCode (d :: rest)

/-- Two `%` characters in a row occur in `s`. -/
def hasDoublePercent : QString → Bool
  | [] => false
  | [_] => false
  | c :: d :: rest => (c == '%' && d == '%') || hasDoublePercent (d :: rest)

/-! ## The line loop of the desktop-entry parsers -/

/-- The `while (!f.atEnd())` loop: `step` is the loop body, `none` its `break`. -/
def readLoop {σ : Type} (step : σ → QString → Option σ) : List QString → σ → σ
  | [], st => st
  | raw :: rest, st =>
    match step st raw with
    | none => st
    | some st' => readLoop step rest st'

/-- The state in which the loop stands after the lines `pre`, or `none` when it
has left through `break` within them. -/
def scanLines {σ : Type} (step : σ → QString → Option σ) : List QString → σ → Option σ
  | [], st => some st
  | raw :: rest, st =>
    match step st raw with
    | none => none
    | some st' => scanLines step rest st'

/-- A line that opens a section: after trimming it begins with `[`. -/
def isHeader (raw : QString) : Bool := startsWith (trimmedBytes raw) "[".toList

/-- The line is exactly `[Desktop Entry]` after trimming. -/
def isMainHeader (raw : QString) : Bool := trimmedBytes raw = "[Desktop Entry]".toList

/-- The line begins with `[Desktop Action` after trimming. -/
def isActionHeader (raw : QString) : Bool :=
  startsWith (trimmedBytes raw) "[Desktop Action".toList

/-- Locals of the per-file loop of `AppLauncher::listApplications`. -/
structure AppScan where
  name : QString
  exec : QString
  iconName : QString
  noDisplay : Bool
  inMainSection : Bool
  deriving DecidableEq, Repr

/-- Values of the locals before the loop of `listApplications`. -/
def AppScan.init : AppScan :=
  { name := [], exec := [], iconName := [], noDisplay := false, inMainSection := false }

/-- Body of the loop of `AppLauncher::listApplications` (menu/main.cpp 221-251).
`toLower` is `QString::toLower`. -/
def listApplicationsStep (toLower : QString → QString) (st : AppScan) (raw : QString) :
    Option AppScan :=
  let line := trimmedBytes raw
  if startsWith line "[".toList then
    if line = "[Desktop Entry]".toList then some { st with inMainSection := true }
    else if startsWith line "[Desktop Action".toList then none
    else some { st with inMainSection := false }
  else if !st.inMainSection then some st
  else if startsWith line "Name=".toList then
    some { st with name := trimmed (mid line 5) }
  else if startsWith line "Exec=".toList then
    some { st with exec := stripFieldCodes (trimmed (mid line 5)) }
  else if startsWith line "Icon=".toList then
    some { st with iconName := trimmed (mid line 5) }
  else if startsWith line "NoDisplay=".toList &&
      toLower (trimmed (mid line 10)) = "true".toList then
    some { st with noDisplay := true }
  else some st

/-- The per-file loop of `listApplications` run over the lines of a file. -/
def listApplicationsParse (toLower : QString → QString) (lines : List QString) : AppScan :=
  readLoop (listApplicationsStep toLower) lines AppScan.init

/-- Locals of the loop of `TileModel::addTileFromDesktopFile`. -/
structure TileScan where
  name : QString
  icon : QString
  command : QString
  inMainSection : Bool
  deriving DecidableEq, Repr

/-- Values of the locals before the loop of `addTileFromDesktopFile`. -/
def TileScan.init : TileScan :=
  { name := [], icon := [], command := [], inMainSection := false }

/-- Body of the loop of `TileModel::addTileFromDesktopFile` (menu/main.cpp 368-395). -/
def addTileStep (st : TileScan) (raw : QString) : Option TileScan :=
  let line := trimmedBytes raw
  if startsWith line "[".toList then
    if line = "[Desktop Entry]".toList then some { st with inMainSection := true }
    else if startsWith line "[Desktop Action".toList then none
    else some { st with inMainSection := false }
  else if !st.inMainSection then some st
  else if startsWith line "Name=".toList then
    some { st with name := trimmed (mid line 5) }
  else if startsWith line "Icon=".toList then
    some { st with icon := trimmed (mid line 5) }
  else if startsWith line "Exec=".toList then
    some { st with command := stripFieldCodes (trimmed (mid line 5)) }
  else some st

/-- The loop of `addTileFromDesktopFile` run over the lines of a file. -/
def addTileParse (lines : List QString) : TileScan :=
  readLoop addTileStep lines TileScan.init

/-- ASCII lower-casing, the restriction of `QString::toLower` to ASCII text. -/
def asciiToLower (s : QString) : QString := s.map Char.toLower

/-- The file of the parsing example: the main section, then an action section
whose lines are `action`. -/
def exampleDesktopFile (action : List QString) : List QString :=
  [ "[Desktop Entry]".toList, "Name=Foo".toList, "Exec=foo %U".toList,
    "Icon=foo-icon".toList, "[Desktop Action New]".toList ] ++ action

/-! ## Positions in a desktop-entry file -/

/-- The last section header among the lines `pre`, if there is one. -/
def lastHeader : List QString → Option QString
  | [] => none
  | r :: rest =>
    match lastHeader rest with
    | some h => some h
    | none => if isHeader r then some r else none

/-- No `[Desktop Entry]` header occurs among the lines `pre`. -/
def beforeMainSection (pre : List QString) : Bool := pre.all (fun r => !isMainHeader r)

/-- The section open after the lines `pre` is not `[Desktop Entry]`. -/
def inOtherSection (pre : List QString) : Bool :=
  match lastHeader pre with
  | some h => !isMainHeader h
  | none => false

/-- A header beginning `[Desktop Action` occurs among the lines `pre`. -/
def afterActionHeader (pre : List QString) : Bool := pre.any isActionHeader

/-- A line placed after the lines `pre` lies in the `[Desktop Entry]` section and
before the first `[Desktop Action` header. -/
def inMainSectionAt (pre : List QString) : Bool :=
  !afterActionHeader pre &&
    (match lastHeader pre with
     | some h => isMainHeader h
     | none => false)

/-- The line begins with `key` after trimming. -/
def hasKey (key : QString) (raw : QString) : Bool := startsWith (trimmedBytes raw) key

/-- The value of a key line whose key (with its `=`) is `n` characters long:
`line.mid(n).trimmed()`. -/
def keyValue (n : Nat) (raw : QString) : QString := trimmed (mid (trimmedBytes raw) n)

/-- A loop body that follows the section headers of a desktop-entry file: `sec`
reads its "in main section" flag. -/
structure SectionLoop {σ : Type} (step : σ → QString → Option σ) (sec : σ → Bool) :
    Prop where
  action : ∀ st r, isActionHeader r = true → step st r = none
  header : ∀ st r, isHeader r = true → isActionHeader r = false →
    ∃ st', step st r = some st' ∧ sec st' = isMainHeader r
  keyLine : ∀ st r, isHeader r = false → ∃ st', step st r = some st' ∧ sec st' = sec st
  skip : ∀ st r, isHeader r = false → sec st = false → step st r = some st

/-! ## Icon lookup -/

/-- The directory list of `AppLauncher::resolveIcon` and `AppModel::resolveIcon`;
`home` is `QDir::homePath()`. -/
def iconDirs (home : QString) : List QString :=
  [ "/usr/share/icons/hicolor/256x256/apps/".toList,
    "/usr/share/icons/hicolor/128x128/apps/".toList,
    "/usr/share/icons/hicolor/64x64/apps/".toList,
    "/usr/share/icons/hicolor/48x48/apps/".toList,
    "/usr/share/icons/hicolor/scalable/apps/".toList,
    "/usr/share/pixmaps/".toList,
    home ++ "/.local/share/icons/hicolor/256x256/apps/".toList ]

/-- The `for (const QString& dir : iconDirs)` loop of both `resolveIcon`s:
`fileExists` is `QFile::exists`. -/
def probeIconDirs (fileExists : QString → Bool) (name placeholder : QString) :
    List QString → QString
  | [] => placeholder
  | dir :: rest =>
    if fileExists (dir ++ name ++ ".png".toList) then
      "file://".toList ++ (dir ++ name ++ ".png".toList)
    else if fileExists (dir ++ name ++ ".svg".toList) then
      "file://".toList ++ (dir ++ name ++ ".svg".toList)
    else probeIconDirs fileExists name placeholder rest

/-- Model of `AppLauncher::resolveIcon` (menu/main.cpp 286-312). -/
def AppLauncher.resolveIcon (fileExists : QString → Bool) (home name : QString) : QString :=
  if name.isEmpty then "qrc:/placeholder.svg".toList
  else if fileExists name then "file://".toList ++ name
  else probeIconDirs fileExists name "qrc:/placeholder.svg".toList (iconDirs home)

/-- Model of `AppModel::resolveIcon` (fixes/main.cpp 241-263). -/
def AppModel.resolveIcon (fileExists : QString → Bool) (home name : QString) : QString :=
  if fileExists name then "file://".toList ++ name
  else probeIconDirs fileExists name "qrc:/icons/placeholder.svg".toList (iconDirs home)

/-! ## The catalog scan of the launcher menu -/

/-- The `QVariantMap` that `listApplications` appends for an accepted file. -/
structure AppRecord where
  name : QString
  command : QString
  icon : QString
  desktopFilePath : QString
  deriving DecidableEq, Repr

/-- One iteration of the file loop of `listApplications` (menu/main.cpp 208-271):
`content` is `none` when the file cannot be opened; the result is the record
appended to `appList`, `none` when the iteration ends in `continue`. -/
def scanDesktopFile (toLower : QString → QString) (fileExists : QString → Bool)
    (home path : QString) (content : Option (List QString)) : Option AppRecord :=
  match content with
  | none => none
  | some lines =>
    let st := listApplicationsParse toLower lines
    if st.name.isEmpty || st.exec.isEmpty || st.noDisplay then none
    else some { name := st.name, command := st.exec,
                icon := AppLauncher.resolveIcon fileExists home st.iconName,
                desktopFilePath := path }

/-- The list `appList` of `listApplications` when the directory loops are over and
before it is sorted: `files` are the `*.desktop` files in the order visited. -/
def collectApplications (toLower : QString → QString) (fileExists : QString → Bool)
    (home : QString) (files : List (QString × Option (List QString))) : List AppRecord :=
  files.filterMap (fun f => scanDesktopFile toLower fileExists home f.1 f.2)

/-- The `[Desktop Entry]` section of `lines` holds, before the first
`[Desktop Action` header, a `NoDisplay=` line whose trimmed value lower-cases
to `true`. -/
def hasNoDisplayTrue (toLower : QString → QString) (lines : List QString) : Prop :=
  ∃ pre l post, lines = pre ++ l :: post ∧ inMainSectionAt pre = true ∧
    hasKey "NoDisplay=".toList l = true ∧ toLower (keyValue 10 l) = "true".toList

/-- A file with every key twice in its main section. -/
def duplicateKeysFile : List QString :=
  [ "[Desktop Entry]".toList, "Name=First".toList, "Icon=first".toList,
    "Exec=first".toList, "Name=Second".toList, "Icon=second".toList,
    "Exec=second".toList ]

/-! ## JSON documents -/

/-- A `QJsonValue`; numbers are exact. -/
inductive JsonValue where
  | null
  | bool (b : Bool)
  | number (x : ℚ)
  | string (s : QString)
  | array (items : List JsonValue)
  | object (members : List (QString × JsonValue))

/-- A `QJsonObject`: its members, kept in key order. -/
abbrev QJsonObject := List (QString × JsonValue)

/-- A `QJsonDocument`: `null` is the document `fromJson` returns for text that
does not parse. -/
inductive JsonDocument where
  | null
  | array (items : List JsonValue)
  | object (members : QJsonObject)

/-- What the persistence file holds when a model loads it. -/
inductive PersistedFile where
  | missing
  | unreadable
  | content (doc : JsonDocument)

/-- Order of the keys of a `QJsonObject`. -/
def keyLt : QString → QString → Bool
  | [], [] => false
  | [], _ :: _ => true
  | _ :: _, [] => false
  | a :: s, b :: t => decide (a.toNat < b.toNat) || (a == b && keyLt s t)

/-- Model of `o[key] = v` on a `QJsonObject`: replaces the member `key` or inserts it at its
place in key order. -/
def QJsonObject.insert : QJsonObject → QString → JsonValue → QJsonObject
  | [], key, v => [(key, v)]
  | (k, w) :: rest, key, v =>
    if key = k then (key, v) :: rest
    else if keyLt key k then (key, v) :: (k, w) :: rest
    else (k, w) :: QJsonObject.insert rest key v

/-- Model of `o[key]` read from a `QJsonObject`: the member, or a null value. -/
def QJsonObject.value : QJsonObject → QString → JsonValue
  | [], _ => JsonValue.null
  | (k, w) :: rest, key => if key = k then w else QJsonObject.value rest key

/-- Model of `QJsonValue::toString(dflt)`. -/
def JsonValue.toStr (dflt : QString) : JsonValue → QString
  | JsonValue.string s => s
  | _ => dflt

/-- Model of `QJsonValue::toDouble()`. -/
def JsonValue.toDouble : JsonValue → ℚ
  | JsonValue.number x => x
  | _ => 0

/-- Model of `QJsonValue::toObject()`. -/
def JsonValue.toObject : JsonValue → QJsonObject
  | JsonValue.object m => m
  | _ => []

/-- Model of `QJsonDocument::isArray()`. -/
def JsonDocument.isArray : JsonDocument → Bool
  | JsonDocument.array _ => true
  | _ => false

/-- Model of `QJsonDocument::array()`: empty when the document is not an array. -/
def JsonDocument.toArray : JsonDocument → List JsonValue
  | JsonDocument.array items => items
  | _ => []

/-! ## Signals and outcomes of the list models -/

/-- Roles of `TileModel`. -/
inductive Role where
  | NameRole | IconRole | DesktopFileRole | CommandRole | XRole | YRole | SizeRole
  deriving DecidableEq, Repr

/-- Notifications of a `QAbstractListModel`, with their row arguments; `rowsMoved`
carries source first, source last and destination child of `beginMoveRows`. -/
inductive Signal where
  | rowsInserted (first last : Int)
  | rowsRemoved (first last : Int)
  | rowsMoved (first last dest : Int)
  | dataChanged (first last : Int) (roles : List Role)
  | modelReset
  | countChanged
  deriving DecidableEq, Repr

/-- The notification describes a structural change at given rows. -/
def Signal.isPositional : Signal → Bool
  | Signal.rowsInserted _ _ => true
  | Signal.rowsRemoved _ _ => true
  | Signal.rowsMoved _ _ _ => true
  | _ => false

/-- What a call of a model method leaves behind: the list, the signals emitted,
the documents written to the persistence file, the processes started (program and
arguments) and the delays of the one-shot timers armed for `refresh`. -/
structure Outcome (α : Type) where
  items : List α
  signals : List Signal
  saved : List JsonDocument
  started : List (QString × List QString)
  timers : List Nat

/-- The outcome of a call that returns without doing anything. -/
def Outcome.unchanged {α : Type} (items : List α) : Outcome α :=
  { items := items, signals := [], saved := [], started := [], timers := [] }

/-- The outcome of a call that changes the list, notifies and persists. -/
def Outcome.mutated {α : Type} (items : List α) (signals : List Signal)
    (doc : JsonDocument) : Outcome α :=
  { items := items, signals := signals, saved := [doc], started := [], timers := [] }

/-! ## Qt containers -/

/-- Model of `std::rotate(b + first, b + middle, b + last)` on a list. -/
def stdRotate {α : Type} (l : List α) (first middle last : Nat) : List α :=
  l.take first ++ ((l.drop middle).take (last - middle) ++
    ((l.drop first).take (middle - first) ++ l.drop last))

/-- Model of `QList::move(from, to)` (`QVector::move`), which rotates the range between the
two positions. -/
def QList.move {α : Type} (l : List α) (fromIdx toIdx : Nat) : List α :=
  if fromIdx = toIdx then l
  else if fromIdx < toIdx then stdRotate l fromIdx (fromIdx + 1) (toIdx + 1)
  else stdRotate l toIdx fromIdx (fromIdx + 1)

/-! ## The taskbar catalog: `AppModel` of fixes/main.cpp -/

/-- Model of `struct AppEntry`. -/
structure AppEntry where
  name : QString
  icon : QString
  exec : QString
  deriving DecidableEq, Repr

/-- Model of `AppEntry::empty()`. -/
def AppEntry.empty (a : AppEntry) : Bool := a.name.isEmpty && a.exec.isEmpty

/-- The object `saveApps` builds for one entry. -/
def AppEntry.toJson (a : AppEntry) : JsonValue :=
  JsonValue.object
    (QJsonObject.insert
      (QJsonObject.insert
        (QJsonObject.insert [] "name".toList (JsonValue.string a.name))
        "icon".toList (JsonValue.string a.icon))
      "exec".toList (JsonValue.string a.exec))

/-- The entry `loadApps` builds from one array element. -/
def AppEntry.ofJson (v : JsonValue) : AppEntry :=
  { name := JsonValue.toStr [] (QJsonObject.value v.toObject "name".toList),
    icon := JsonValue.toStr [] (QJsonObject.value v.toObject "icon".toList),
    exec := JsonValue.toStr [] (QJsonObject.value v.toObject "exec".toList) }

/-- The array loop of `AppModel::saveApps` (fixes/main.cpp 299-306). -/
def saveAppsArray : List AppEntry → List JsonValue
  | [] => []
  | a :: rest =>
    if a.empty then saveAppsArray rest
    else a.toJson :: saveAppsArray rest

/-- Model of `AppModel::saveApps`: the document written to `apps.json`. -/
def AppModel.saveApps (apps : List AppEntry) : JsonDocument :=
  JsonDocument.array (saveAppsArray apps)

/-- Model of `AppModel::loadApps` (fixes/main.cpp 271-295). -/
def AppModel.loadApps (apps : List AppEntry) (file : PersistedFile) : Outcome AppEntry :=
  match file with
  | PersistedFile.missing => Outcome.unchanged apps
  | PersistedFile.unreadable => Outcome.unchanged apps
  | PersistedFile.content doc =>
    if !doc.isArray then Outcome.unchanged apps
    else
      { items := doc.toArray.map AppEntry.ofJson,
        signals := [Signal.modelReset, Signal.countChanged],
        saved := [], started := [], timers := [] }

/-- Locals of the loop of `AppModel::addDesktopFile`. -/
structure EntryScan where
  name : QString
  icon : QString
  exec : QString
  deriving DecidableEq, Repr

/-- Body of the loop of `AppModel::addDesktopFile` (fixes/main.cpp 83-89);
`resolve` is `resolveIcon`. The loop has no `break`. -/
def addDesktopFileStep (resolve : QString → QString) (st : EntryScan) (raw : QString) :
    Option EntryScan :=
  let line := trimmed raw
  if startsWith line "Name=".toList && st.name.isEmpty then
    some { st with name := mid line 5 }
  else if startsWith line "Icon=".toList && st.icon.isEmpty then
    some { st with icon := resolve (mid line 5) }
  else if startsWith line "Exec=".toList && st.exec.isEmpty then
    some { st with exec := mid line 5 }
  else some st

/-- The loop of `AppModel::addDesktopFile` run over the lines of a file. -/
def addDesktopFileParse (resolve : QString → QString) (lines : List QString) : EntryScan :=
  readLoop (addDesktopFileStep resolve) lines { name := [], icon := [], exec := [] }

/-- Model of `AppModel::addDesktopFile` (fixes/main.cpp 73-103); `content` is `none` when
the file cannot be opened. -/
def AppModel.addDesktopFile (fileExists : QString → Bool) (home : QString)
    (apps : List AppEntry) (content : Option (List QString)) : Outcome AppEntry :=
  match content with
  | none => Outcome.unchanged apps
  | some lines =>
    let st := addDesktopFileParse (AppModel.resolveIcon fileExists home) lines
    if st.name.isEmpty && st.exec.isEmpty then Outcome.unchanged apps
    else
      let apps' := apps ++ [{ name := st.name, icon := st.icon, exec := st.exec }]
      Outcome.mutated apps'
        [Signal.rowsInserted apps.length apps.length, Signal.countChanged]
        (AppModel.saveApps apps')

/-- Model of `AppModel::removeApp` (fixes/main.cpp 106-128). -/
def AppModel.removeApp (apps : List AppEntry) (index : Int) : Outcome AppEntry :=
  if index < 0 ∨ (apps.length : Int) ≤ index then Outcome.unchanged apps
  else
    let apps' := apps.eraseIdx index.toNat
    Outcome.mutated apps' [Signal.rowsRemoved index index, Signal.countChanged]
      (AppModel.saveApps apps')

/-- Model of `AppModel::moveApp` (fixes/main.cpp 132-140). -/
def AppModel.moveApp (apps : List AppEntry) (fromIdx toIdx : Int) : Outcome AppEntry :=
  if fromIdx < 0 ∨ toIdx < 0 ∨ (apps.length : Int) ≤ fromIdx ∨ (apps.length : Int) ≤ toIdx ∨
      fromIdx = toIdx then Outcome.unchanged apps
  else
    let apps' := QList.move apps fromIdx.toNat toIdx.toNat
    Outcome.mutated apps'
      [Signal.rowsMoved fromIdx fromIdx (if toIdx > fromIdx then toIdx + 1 else toIdx),
       Signal.countChanged]
      (AppModel.saveApps apps')

/-! ## The tile store: `TileModel` of menu/main.cpp -/

/-- Model of `struct Tile`; the coordinates are exact numbers. -/
structure Tile where
  name : QString
  icon : QString
  desktopFile : QString
  command : QString
  x : ℚ
  y : ℚ
  size : QString
  deriving DecidableEq

/-- The object `TileModel::save` builds for one tile (menu/main.cpp 465-472). -/
def Tile.toJson (t : Tile) : JsonValue :=
  JsonValue.object
    (QJsonObject.insert
      (QJsonObject.insert
        (QJsonObject.insert
          (QJsonObject.insert
            (QJsonObject.insert
              (QJsonObject.insert
                (QJsonObject.insert [] "name".toList (JsonValue.string t.name))
                "icon".toList (JsonValue.string t.icon))
              "desktopFile".toList (JsonValue.string t.desktopFile))
            "command".toList (JsonValue.string t.command))
          "x".toList (JsonValue.number t.x))
        "y".toList (JsonValue.number t.y))
      "size".toList (JsonValue.string t.size))

/-- The tile `TileModel::load` builds from one array element (menu/main.cpp 447-456). -/
def Tile.ofJson (v : JsonValue) : Tile :=
  { name := JsonValue.toStr [] (QJsonObject.value v.toObject "name".toList),
    icon := JsonValue.toStr [] (QJsonObject.value v.toObject "icon".toList),
    desktopFile := JsonValue.toStr [] (QJsonObject.value v.toObject "desktopFile".toList),
    command := JsonValue.toStr [] (QJsonObject.value v.toObject "command".toList),
    x := (QJsonObject.value v.toObject "x".toList).toDouble,
    y := (QJsonObject.value v.toObject "y".toList).toDouble,
    size := JsonValue.toStr "medium".toList (QJsonObject.value v.toObject "size".toList) }

/-- Model of `TileModel::save`: the document written to `launcher_tiles.json`. -/
def TileModel.save (tiles : List Tile) : JsonDocument :=
  JsonDocument.array (tiles.map Tile.toJson)

/-- Model of `TileModel::load` (menu/main.cpp 437-460). -/
def TileModel.load (tiles : List Tile) (file : PersistedFile) : Outcome Tile :=
  match file with
  | PersistedFile.missing => Outcome.unchanged tiles
  | PersistedFile.unreadable => Outcome.unchanged tiles
  | PersistedFile.content doc =>
    { items := doc.toArray.map Tile.ofJson, signals := [Signal.modelReset],
      saved := [], started := [], timers := [] }

/-- Model of `TileModel::updateTilePosition` (menu/main.cpp 414-420). -/
def TileModel.updateTilePosition (tiles : List Tile) (index : Int) (x y : ℚ) : Outcome Tile :=
  if h : index < 0 ∨ (tiles.length : Int) ≤ index then Outcome.unchanged tiles
  else
    let t := tiles.get ⟨index.toNat, by omega⟩
    let tiles' := tiles.set index.toNat { t with x := x, y := y }
    Outcome.mutated tiles' [Signal.dataChanged index index [Role.XRole, Role.YRole]]
      (TileModel.save tiles')

/-- Model of `TileModel::resizeTile` (menu/main.cpp 422-427). -/
def TileModel.resizeTile (tiles : List Tile) (index : Int) (size : QString) : Outcome Tile :=
  if h : index < 0 ∨ (tiles.length : Int) ≤ index then Outcome.unchanged tiles
  else
    let t := tiles.get ⟨index.toNat, by omega⟩
    let tiles' := tiles.set index.toNat { t with size := size }
    Outcome.mutated tiles' [Signal.dataChanged index index [Role.SizeRole]]
      (TileModel.save tiles')

/-- Model of `TileModel::removeTile` (menu/main.cpp 429-435). -/
def TileModel.removeTile (tiles : List Tile) (index : Int) : Outcome Tile :=
  if index < 0 ∨ (tiles.length : Int) ≤ index then Outcome.unchanged tiles
  else
    let tiles' := tiles.eraseIdx index.toNat
    Outcome.mutated tiles' [Signal.rowsRemoved index index] (TileModel.save tiles')

/-! ## The window list: `RunningWindowModel` of fixes/main.cpp -/

/-- Model of `struct WindowEntry`. -/
structure WindowEntry where
  id : QString
  title : QString
  app_id : QString
  focused : Bool
  icon : QString
  deriving DecidableEq, Repr

/-- Model of `RunningWindowModel::activate` (fixes/main.cpp 365-380). `helper` is the result
of `findExecutable("list-windows")`, `none` when it is empty; `startOk` is the
result of `QProcess::startDetached`, which `activate` does not look at. -/
def RunningWindowModel.activate (windows : List WindowEntry) (helper : Option QString)
    (_startOk : Bool) (index : Int) : Outcome WindowEntry :=
  if h : index < 0 ∨ (windows.length : Int) ≤ index then Outcome.unchanged windows
  else
    let wid := (windows.get ⟨index.toNat, by omega⟩).id
    match helper with
    | none => Outcome.unchanged windows
    | some program =>
      { items := windows, signals := [], saved := [],
        started := [(program, ["--activate".toList, wid])], timers := [120] }

/-- Model of `RunningWindowModel::close` (fixes/main.cpp 382-398), with `helper` and
`startOk` as for `activate`. -/
def RunningWindowModel.close (windows : List WindowEntry) (helper : Option QString)
    (startOk : Bool) (index : Int) : Outcome WindowEntry :=
  if h : index < 0 ∨ (windows.length : Int) ≤ index then Outcome.unchanged windows
  else
    let wid := (windows.get ⟨index.toNat, by omega⟩).id
    match helper with
    | none => Outcome.unchanged windows
    | some program =>
      { items := windows, signals := [], saved := [],
        started := [(program, ["--close".toList, wid])],
        timers := if startOk then [120] else [] }

/-- The signals hold exactly one positional notification, `pos`, and no reset. -/
def onePositional (signals : List Signal) (pos : Signal) : Prop :=
  signals.filter Signal.isPositional = [pos] ∧ Signal.modelReset ∉ signals

/-- A desktop-entry file naming a terminal. -/
def termDesktopFile : List QString :=
  [ "[Desktop Entry]".toList, "Name=Term".toList, "Exec=xterm".toList ]

/-- List `r` is list `l` with the element at index `f` taken out and put back at
index `t`: the standard list move, spelt out by position. -/
def IsListMove {α : Type} (l r : List α) (f t : Nat) : Prop :=
  (∃ x, l[f]? = some x ∧ r = List.insertIdx t x (l.eraseIdx f)) ∧
  r[t]? = l[f]? ∧
  r.length = l.length ∧
  r.eraseIdx t = l.eraseIdx f ∧
  (f < t → ∀ k, f < k → k ≤ t → r[k - 1]? = l[k]?) ∧
  (t < f → ∀ k, t ≤ k → k < f → r[k + 1]? = l[k]?) ∧
  (∀ k, (k < f ∧ k < t) ∨ (f < k ∧ t < k) → r[k]? = l[k]?)

/-! ## The window snapshot -/

/-- One group of the snapshot `windows.ini` as `QSettings` hands it to
`loadFromIni`: the group name and the values of `Title`, `AppID` and `Focused`
after `toString()` and `toBool()`. -/
structure IniGroup where
  group : QString
  title : QString
  appId : QString
  focused : Bool
  deriving DecidableEq, Repr

/-- The entry `loadFromIni` builds for one group (fixes/main.cpp 449-458);
`iconFor` is `resolveIcon(readDesktopIcon(app_id))`. -/
def WindowEntry.ofGroup (iconFor : QString → QString) (g : IniGroup) : WindowEntry :=
  { id := g.group, title := g.title, app_id := g.appId, focused := g.focused,
    icon := iconFor g.appId }

/-- Model of `RunningWindowModel::loadFromIni` (fixes/main.cpp 437-474); `snapshot`
is `none` when the file does not exist. -/
def RunningWindowModel.loadFromIni (iconFor : QString → QString)
    (windows : List WindowEntry) (snapshot : Option (List IniGroup)) : Outcome WindowEntry :=
  match snapshot with
  | none => Outcome.unchanged windows
  | some groups =>
    let newList := groups.map (WindowEntry.ofGroup iconFor)
    if newList.length = windows.length then
      { items := newList,
        signals := if newList.isEmpty then []
                   else [Signal.dataChanged 0 ((newList.length : Int) - 1) []],
        saved := [], started := [], timers := [] }
    else
      { items := newList, signals := [Signal.modelReset],
        saved := [], started := [], timers := [] }

/-- Three groups of a snapshot. -/
def threeGroups : List IniGroup :=
  [ { group := "w1".toList, title := "Editor".toList, appId := "kate".toList, focused := true },
    { group := "w2".toList, title := "Shell".toList, appId := "konsole".toList, focused := false },
    { group := "w3".toList, title := "Web".toList, appId := "firefox".toList, focused := false } ]

/-- The same three windows, the title of the second one changed. -/
def threeGroupsRetitled : List IniGroup :=
  [ { group := "w1".toList, title := "Editor".toList, appId := "kate".toList, focused := true },
    { group := "w2".toList, title := "Shell - make".toList, appId := "konsole".toList,
      focused := false },
    { group := "w3".toList, title := "Web".toList, appId := "firefox".toList, focused := false } ]

/-- The first two of the three windows. -/
def twoGroups : List IniGroup :=
  [ { group := "w1".toList, title := "Editor".toList, appId := "kate".toList, focused := true },
    { group := "w2".toList, title := "Shell".toList, appId := "konsole".toList, focused := false } ]

/-! ## Adding a tile -/

/-- Model of `QFileInfo::fileName()`: what follows the last `/` of the path. -/
def fileName (path : QString) : QString := (path.reverse.takeWhile (fun c => c != '/')).reverse

/-- Model of `QFileInfo::baseName()`: the file name up to its first `.`. -/
def baseName (path : QString) : QString := (fileName path).takeWhile (fun c => c != '.')

/-- The tile `addTileFromDesktopFile` appends (menu/main.cpp 400-404). -/
def tileFromScan (st : TileScan) (filePath : QString) (dropX dropY : ℚ) : Tile :=
  { name := if st.name.isEmpty then baseName filePath else st.name,
    icon := st.icon, desktopFile := filePath, command := st.command,
    x := dropX, y := dropY, size := "medium".toList }

/-- Model of `TileModel::addTileFromDesktopFile` (menu/main.cpp 360-410); `content`
is `none` when the file cannot be opened. -/
def TileModel.addTileFromDesktopFile (tiles : List Tile) (filePath : QString)
    (content : Option (List QString)) (dropX dropY : ℚ) : Outcome Tile :=
  match content with
  | none => Outcome.unchanged tiles
  | some lines =>
    let tiles' := tiles ++ [tileFromScan (addTileParse lines) filePath dropX dropY]
    Outcome.mutated tiles' [Signal.rowsInserted tiles.length tiles.length]
      (TileModel.save tiles')

/-! ## Icon candidates -/

/-- The paths probed for `name` when the directories `dirs` are walked in order:
in each directory `<name>.png`, then `<name>.svg`. -/
def iconCandidates (name : QString) : List QString → List QString
  | [] => []
  | dir :: rest =>
    (dir ++ name ++ ".png".toList) :: (dir ++ name ++ ".svg".toList) ::
      iconCandidates name rest

/-- A tile store holding one tile. -/
def termTiles : List Tile :=
  [ { name := "Term".toList, icon := [], desktopFile := "/a/term.desktop".toList,
      command := "xterm".toList, x := 10, y := 20, size := "medium".toList } ]

/-- A desktop-entry file whose main section has only a name; its action section
has a name, a command and an icon of its own. -/
def actionDesktopFile : List QString :=
  [ "[Desktop Entry]".toList, "Name=App".toList, "[Desktop Action New]".toList,
    "Name=New Window".toList, "Exec=app --new-window".toList, "Icon=app-new".toList ]

/-- A file system whose only file is the pixmap `app-new.png`. -/
def onlyAppNewPixmap (path : QString) : Bool := path = "/usr/share/pixmaps/app-new.png".toList

/-- A window list holding one window. -/
def oneWindow : List WindowEntry :=
  [ { id := "w1".toList, title := "Editor".toList, app_id := "kate".toList, focused := true,
      icon := [] } ]

/-! ## The sorted catalog of the launcher menu -/

/-- The UTF-16 code units of a character, as a `QString` stores it. -/
def utf16Units (c : Char) : List Nat :=
  if c.toNat < 0x10000 then [c.toNat]
  else [0xD800 + (c.toNat - 0x10000) / 0x400, 0xDC00 + (c.toNat - 0x10000) % 0x400]

/-- The UTF-16 code units of a string. -/
def codeUnits : QString → List Nat
  | [] => []
  | c :: rest => utf16Units c ++ codeUnits rest

/-- Lexicographic order of code-unit sequences. -/
def unitsLt : List Nat → List Nat → Bool
  | [], [] => false
  | [], _ :: _ => true
  | _ :: _, [] => false
  | a :: s, b :: t => decide (a < b) || (a == b && unitsLt s t)

/-- Model of `operator<` on `QString`: the comparison of the code units. -/
def qstringLt (a b : QString) : Bool := unitsLt (codeUnits a) (codeUnits b)

/-- The comparator handed to `std::sort` in `listApplications` (menu/main.cpp
275-279). -/
def nameLess (toLower : QString → QString) (a b : AppRecord) : Bool :=
  qstringLt (toLower a.name) (toLower b.name)

/-- Insertion of `a` into a list sorted by the comparator `lt`, after the elements
that are less than `a`. -/
def insertSorted {α : Type} (lt : α → α → Bool) (a : α) : List α → List α
  | [] => [a]
  | b :: rest => if lt b a then b :: insertSorted lt a rest else a :: b :: rest

/-- Model of `std::sort(begin, end, lt)`: the standard leaves the order of
equivalent elements open; this is the outcome that keeps them in their original
order. -/
def stdSort {α : Type} (lt : α → α → Bool) : List α → List α
  | [] => []
  | a :: rest => insertSorted lt a (stdSort lt rest)

/-- Model of `AppLauncher::listApplications` (menu/main.cpp 196-283): the records
collected from `files`, sorted by lower-cased name. -/
def AppLauncher.listApplications (toLower : QString → QString) (fileExists : QString → Bool)
    (home : QString) (files : List (QString × Option (List QString))) : List AppRecord :=
  stdSort (nameLess toLower) (collectApplications toLower fileExists home files)

/-- Three scanned files: two accepted ones out of name order and a hidden one. -/
def scannedFiles : List (QString × Option (List QString)) :=
  [ ("/a/term.desktop".toList, some termDesktopFile),
    ("/a/hidden.desktop".toList,
      some ["[Desktop Entry]".toList, "Name=Hidden".toList, "Exec=h".toList,
        "NoDisplay=true".toList]),
    ("/a/foo.desktop".toList, some (exampleDesktopFile [])) ]

/-! ## Theorems -/

/-! ### Strings and headers -/

theorem startsWith_bracket_of_action (s : QString)
    (h : startsWith s "[Desktop Action".toList = true) : startsWith s "[".toList = true := by
  cases s with
  | nil => simp [startsWith] at h
  | cons c t =>
    simp only [String.toList, startsWith, Bool.and_eq_true] at h
    simp [startsWith, h.1]

theorem isHeader_of_action {r : QString} (h : isActionHeader r = true) : isHeader r = true :=
  startsWith_bracket_of_action _ h

theorem isHeader_of_main {r : QString} (h : isMainHeader r = true) : isHeader r = true := by
  simp only [isMainHeader, decide_eq_true_eq] at h
  simp only [isHeader, h]
  decide

theorem not_action_of_main {r : QString} (h : isMainHeader r = true) :
    isActionHeader r = false := by
  simp only [isMainHeader, decide_eq_true_eq] at h
  simp only [isActionHeader, h]
  decide

theorem not_main_of_action {r : QString} (h : isActionHeader r = true) :
    isMainHeader r = false := by
  cases hm : isMainHeader r with
  | false => rfl
  | true => rw [not_action_of_main hm] at h; cases h

/-! ### The section-following loops -/

theorem listApplicationsStep_sectionLoop (toLower : QString → QString) :
    SectionLoop (listApplicationsStep toLower) AppScan.inMainSection where
  action := by
    intro st r h
    have h1 := isHeader_of_action h
    have h2 := not_main_of_action h
    simp only [isHeader, isMainHeader, isActionHeader, decide_eq_false_iff_not] at h h1 h2
    simp only [listApplicationsStep, h, h1, h2, if_true, if_false]
  header := by
    intro st r h1 h2
    simp only [isHeader, isActionHeader] at h1 h2
    by_cases hm : trimmedBytes r = "[Desktop Entry]".toList
    · simp only [listApplicationsStep, isMainHeader]
      rw [if_pos h1, if_pos hm]
      exact ⟨_, rfl, by simp [hm]⟩
    · simp only [listApplicationsStep, isMainHeader]
      rw [if_pos h1, if_neg hm, if_neg (by rw [h2]; exact Bool.false_ne_true)]
      exact ⟨_, rfl, (decide_eq_false hm).symm⟩
  keyLine := by
    intro st r h
    simp only [isHeader] at h
    simp only [listApplicationsStep, h, Bool.false_eq_true, if_false]
    split_ifs <;> simp_all
  skip := by
    intro st r h hs
    simp only [isHeader] at h
    simp only [listApplicationsStep, h, hs, Bool.false_eq_true, if_false, Bool.not_false, if_true]

theorem addTileStep_sectionLoop : SectionLoop addTileStep TileScan.inMainSection where
  action := by
    intro st r h
    have h1 := isHeader_of_action h
    have h2 := not_main_of_action h
    simp only [isHeader, isMainHeader, isActionHeader, decide_eq_false_iff_not] at h h1 h2
    simp only [addTileStep, h, h1, h2, if_true, if_false]
  header := by
    intro st r h1 h2
    simp only [isHeader, isActionHeader] at h1 h2
    by_cases hm : trimmedBytes r = "[Desktop Entry]".toList
    · simp only [addTileStep, isMainHeader]
      rw [if_pos h1, if_pos hm]
      exact ⟨_, rfl, by simp [hm]⟩
    · simp only [addTileStep, isMainHeader]
      rw [if_pos h1, if_neg hm, if_neg (by rw [h2]; exact Bool.false_ne_true)]
      exact ⟨_, rfl, (decide_eq_false hm).symm⟩
  keyLine := by
    intro st r h
    simp only [isHeader] at h
    simp only [addTileStep, h, Bool.false_eq_true, if_false]
    split_ifs <;> simp_all
  skip := by
    intro st r h hs
    simp only [isHeader] at h
    simp only [addTileStep, h, hs, Bool.false_eq_true, if_false, Bool.not_false, if_true]

theorem readLoop_append {σ : Type} (step : σ → QString → Option σ)
    (pre post : List QString) (st : σ) :
    readLoop step (pre ++ post) st =
      match scanLines step pre st with
      | none => readLoop step pre st
      | some st' => readLoop step post st' := by
  induction pre generalizing st with
  | nil => simp [scanLines]
  | cons r rest ih =>
    simp only [List.cons_append, readLoop, scanLines]
    cases step st r with
    | none => rfl
    | some st1 => exact ih st1

theorem scanLines_append {σ : Type} (step : σ → QString → Option σ)
    (pre post : List QString) (st : σ) :
    scanLines step (pre ++ post) st =
      match scanLines step pre st with
      | none => none
      | some st' => scanLines step post st' := by
  induction pre generalizing st with
  | nil => simp [scanLines]
  | cons r rest ih =>
    simp only [List.cons_append, scanLines]
    cases step st r with
    | none => rfl
    | some st1 => exact ih st1

theorem lastHeader_mem {pre : List QString} {h : QString} (hl : lastHeader pre = some h) :
    h ∈ pre ∧ isHeader h = true := by
  induction pre with
  | nil => simp [lastHeader] at hl
  | cons r rest ih =>
    simp only [lastHeader] at hl
    cases hr : lastHeader rest with
    | some h' =>
      rw [hr] at hl
      simp only [Option.some.injEq] at hl
      subst hl
      exact ⟨List.mem_cons_of_mem _ (ih hr).1, (ih hr).2⟩
    | none =>
      rw [hr] at hl
      by_cases hh : isHeader r = true
      · simp only [hh, if_true, Option.some.injEq] at hl
        subst hl
        exact ⟨List.mem_cons_self _ _, hh⟩
      · simp [hh] at hl

theorem scanLines_eq_none_iff {σ : Type} {step : σ → QString → Option σ} {sec : σ → Bool}
    (hs : SectionLoop step sec) (pre : List QString) (st : σ) :
    scanLines step pre st = none ↔ afterActionHeader pre = true := by
  induction pre generalizing st with
  | nil => simp [scanLines, afterActionHeader]
  | cons r rest ih =>
    simp only [scanLines, afterActionHeader, List.any_cons, Bool.or_eq_true]
    by_cases ha : isActionHeader r = true
    · simp [hs.action st r ha, ha]
    · have ha' : isActionHeader r = false := by simpa using ha
      have hex : ∃ st', step st r = some st' := by
        by_cases hh : isHeader r = true
        · obtain ⟨st', h1, _⟩ := hs.header st r hh ha'
          exact ⟨st', h1⟩
        · obtain ⟨st', h1, _⟩ := hs.keyLine st r (by simpa using hh)
          exact ⟨st', h1⟩
      obtain ⟨st', h1⟩ := hex
      simp only [h1, ha', Bool.false_eq_true, false_or]
      exact ih st'

theorem scanLines_sec {σ : Type} {step : σ → QString → Option σ} {sec : σ → Bool}
    (hs : SectionLoop step sec) (pre : List QString) (st st' : σ)
    (h : scanLines step pre st = some st') :
    sec st' = (match lastHeader pre with
               | some h => isMainHeader h
               | none => sec st) := by
  induction pre generalizing st with
  | nil =>
    simp only [scanLines, Option.some.injEq] at h
    simp [lastHeader, h]
  | cons r rest ih =>
    simp only [scanLines] at h
    cases h1 : step st r with
    | none => simp [h1] at h
    | some st1 =>
      rw [h1] at h
      have ih' := ih st1 h
      rw [ih']
      simp only [lastHeader]
      cases hr : lastHeader rest with
      | some h' => rfl
      | none =>
        by_cases hh : isHeader r = true
        · have ha : isActionHeader r = false := by
            cases hact : isActionHeader r with
            | false => rfl
            | true => rw [hs.action st r hact] at h1; cases h1
          obtain ⟨st2, h2, h3⟩ := hs.header st r hh ha
          rw [h1] at h2
          simp only [Option.some.injEq] at h2
          subst h2
          simp [hh, h3]
        · have hh' : isHeader r = false := by simpa using hh
          obtain ⟨st2, h2, h3⟩ := hs.keyLine st r hh'
          rw [h1] at h2
          simp only [Option.some.injEq] at h2
          subst h2
          simp [hh', h3]

theorem scanLines_sec_init {σ : Type} {step : σ → QString → Option σ} {sec : σ → Bool}
    (hs : SectionLoop step sec) (pre : List QString) (st st' : σ) (h0 : sec st = false)
    (h : scanLines step pre st = some st') : sec st' = inMainSectionAt pre := by
  have ha : afterActionHeader pre = false := by
    cases hact : afterActionHeader pre with
    | false => rfl
    | true => rw [(scanLines_eq_none_iff hs pre st).2 hact] at h; cases h
  rw [scanLines_sec hs pre st st' h, inMainSectionAt, ha]
  cases lastHeader pre <;> simp [h0]

theorem inMainSectionAt_eq_false_of_outside {pre : List QString}
    (h : beforeMainSection pre = true ∨ inOtherSection pre = true ∨
      afterActionHeader pre = true) : inMainSectionAt pre = false := by
  rcases h with h | h | h
  · simp only [inMainSectionAt]
    cases hl : lastHeader pre with
    | none => simp
    | some hd =>
      have hm := (lastHeader_mem hl).1
      simp only [beforeMainSection, List.all_eq_true, Bool.not_eq_true'] at h
      simp [h hd hm]
  · simp only [inOtherSection] at h
    simp only [inMainSectionAt]
    cases hl : lastHeader pre with
    | none => simp
    | some hd =>
      rw [hl] at h
      simp only [Bool.not_eq_true'] at h
      simp [h]
  · simp [inMainSectionAt, h]

theorem readLoop_insert_outside {σ : Type} {step : σ → QString → Option σ} {sec : σ → Bool}
    (hs : SectionLoop step sec) (st0 : σ) (h0 : sec st0 = false)
    (pre post : List QString) (l : QString) (hl : isHeader l = false)
    (hpos : inMainSectionAt pre = false) :
    readLoop step (pre ++ l :: post) st0 = readLoop step (pre ++ post) st0 := by
  rw [readLoop_append, readLoop_append]
  cases h : scanLines step pre st0 with
  | none => rfl
  | some st' =>
    have hsec : sec st' = false := by rw [scanLines_sec_init hs pre st0 st' h0 h, hpos]
    simp only [readLoop, hs.skip st' l hl hsec]

/-! ### C1: the parsing example -/

/-- C1: for the file `[Desktop Entry]`, `Name=Foo`, `Exec=foo %U`, `Icon=foo-icon`,
`[Desktop Action New]` followed by any lines of the action section, the loop of
`listApplications` and the loop of `addTileFromDesktopFile` both yield the name
`Foo`, the command `foo ` (placeholder removed, the space before it kept) and the
raw icon `foo-icon`, whatever the action section holds, so its `Exec=` is not
used. -/
theorem C1_example_parse (toLower : QString → QString) (action : List QString) :
    (listApplicationsParse toLower (exampleDesktopFile action)).name = "Foo".toList ∧
    (listApplicationsParse toLower (exampleDesktopFile action)).exec = "foo ".toList ∧
    (listApplicationsParse toLower (exampleDesktopFile action)).iconName = "foo-icon".toList ∧
    (listApplicationsParse toLower (exampleDesktopFile action)).noDisplay = false ∧
    (addTileParse (exampleDesktopFile action)).name = "Foo".toList ∧
    (addTileParse (exampleDesktopFile action)).command = "foo ".toList ∧
    (addTileParse (exampleDesktopFile action)).icon = "foo-icon".toList := by
  have ha : listApplicationsParse toLower (exampleDesktopFile action) =
      { name := "Foo".toList, exec := "foo ".toList, iconName := "foo-icon".toList,
        noDisplay := false, inMainSection := true } := by
    unfold listApplicationsParse exampleDesktopFile
    rw [readLoop_append]
    rfl
  have ht : addTileParse (exampleDesktopFile action) =
      { name := "Foo".toList, icon := "foo-icon".toList, command := "foo ".toList,
        inMainSection := true } := by
    unfold addTileParse exampleDesktopFile
    rw [readLoop_append]
    rfl
  rw [ha, ht]
  exact ⟨rfl, rfl, rfl, rfl, rfl, rfl, rfl⟩

/-! ### C2: lines outside the main section -/

/-- C2: a key line (a line that is not a section header) placed before the first
`[Desktop Entry]` header, inside another `[...]` section, or anywhere after a
`[Desktop Action` header has no effect on the result of either parser: deleting
it (equivalently, adding it) or replacing it by another key line leaves the whole
final state of the loop, so name, icon, exec and noDisplay, unchanged. -/
theorem C2_outside_lines_ignored (toLower : QString → QString)
    (pre post : List QString) (l l' : QString)
    (hl : isHeader l = false) (hl' : isHeader l' = false)
    (hpos : beforeMainSection pre = true ∨ inOtherSection pre = true ∨
      afterActionHeader pre = true) :
    listApplicationsParse toLower (pre ++ l :: post) =
        listApplicationsParse toLower (pre ++ post) ∧
    listApplicationsParse toLower (pre ++ l' :: post) =
        listApplicationsParse toLower (pre ++ l :: post) ∧
    addTileParse (pre ++ l :: post) = addTileParse (pre ++ post) ∧
    addTileParse (pre ++ l' :: post) = addTileParse (pre ++ l :: post) := by
  have hp := inMainSectionAt_eq_false_of_outside hpos
  have a1 := readLoop_insert_outside (listApplicationsStep_sectionLoop toLower)
    AppScan.init rfl pre post l hl hp
  have a2 := readLoop_insert_outside (listApplicationsStep_sectionLoop toLower)
    AppScan.init rfl pre post l' hl' hp
  have t1 := readLoop_insert_outside addTileStep_sectionLoop TileScan.init rfl pre post l hl hp
  have t2 := readLoop_insert_outside addTileStep_sectionLoop TileScan.init rfl pre post l' hl' hp
  exact ⟨a1, a2.trans a1.symm, t1, t2.trans t1.symm⟩

/-- C2 at a concrete file: a `Name=` line inside the section `[Other]` is ignored. -/
theorem C2_outside_lines_ignored_witness :
    (beforeMainSection ["[Desktop Entry]".toList, "Name=A".toList, "[Other]".toList] = true ∨
      inOtherSection ["[Desktop Entry]".toList, "Name=A".toList, "[Other]".toList] = true ∨
      afterActionHeader ["[Desktop Entry]".toList, "Name=A".toList, "[Other]".toList] = true) ∧
    listApplicationsParse asciiToLower
        (["[Desktop Entry]".toList, "Name=A".toList, "[Other]".toList] ++
          "Name=B".toList :: ["Icon=i".toList]) =
      listApplicationsParse asciiToLower
        (["[Desktop Entry]".toList, "Name=A".toList, "[Other]".toList] ++ ["Icon=i".toList]) :=
  ⟨Or.inr (Or.inl (by decide)),
   (C2_outside_lines_ignored asciiToLower
      ["[Desktop Entry]".toList, "Name=A".toList, "[Other]".toList] ["Icon=i".toList]
      "Name=B".toList "Exec=x".toList (by decide) (by decide)
      (Or.inr (Or.inl (by decide)))).1⟩

/-! ### Key lines -/

theorem startsWith_head_ne {s k k' : QString} {c d : Char}
    (h : startsWith s (c :: k) = true) (hne : c ≠ d) : startsWith s (d :: k') = false := by
  cases s with
  | nil => simp [startsWith] at h
  | cons a t =>
    simp only [startsWith, Bool.and_eq_true, beq_iff_eq] at h
    simp only [startsWith, Bool.and_eq_false_imp, beq_iff_eq]
    intro had
    exact absurd (h.1.symm.trans had) hne

theorem isHeader_eq_false_of_hasKey {m k : QString} {c : Char}
    (h : hasKey (c :: k) m = true) (hne : c ≠ '[') : isHeader m = false :=
  startsWith_head_ne h hne

theorem scanLines_of_inMain {σ : Type} {step : σ → QString → Option σ} {sec : σ → Bool}
    (hs : SectionLoop step sec) (st0 : σ) (h0 : sec st0 = false) (pre : List QString)
    (hpos : inMainSectionAt pre = true) :
    ∃ st, scanLines step pre st0 = some st ∧ sec st = true := by
  cases h : scanLines step pre st0 with
  | none =>
    have ha := (scanLines_eq_none_iff hs pre st0).1 h
    simp [inMainSectionAt, ha] at hpos
  | some st => exact ⟨st, rfl, by rw [scanLines_sec_init hs pre st0 st h0 h, hpos]⟩

theorem listApplicationsStep_keeps_exec (toLower : QString → QString) (st : AppScan)
    (m : QString) (st2 : AppScan) (h : listApplicationsStep toLower st m = some st2)
    (hk : hasKey "Exec=".toList m = false) : st2.exec = st.exec := by
  simp only [hasKey] at hk
  simp only [listApplicationsStep, hk, Bool.false_eq_true, if_false] at h
  split_ifs at h <;> simp only [Option.some.injEq, reduceCtorEq] at h <;> rw [← h]

theorem addTileStep_keeps_command (st : TileScan) (m : QString) (st2 : TileScan)
    (h : addTileStep st m = some st2) (hk : hasKey "Exec=".toList m = false) :
    st2.command = st.command := by
  simp only [hasKey] at hk
  simp only [addTileStep, hk, Bool.false_eq_true, if_false] at h
  split_ifs at h <;> simp only [Option.some.injEq, reduceCtorEq] at h <;> rw [← h]

/-! ### C3: repeated keys -/

/-- C3, the code at a failing input: in a main section with every key twice,
neither parser of the launcher menu returns the value of the first `Name=`,
`Icon=` or `Exec=` line; each assignment overwrites the one before and both
return the value of the second line. On the same file the loop of the taskbar's
`addDesktopFile`, which guards each key with `isEmpty()`, keeps the first name and
the first exec. -/
theorem C3_first_occurrence_not_kept :
    (listApplicationsParse asciiToLower duplicateKeysFile).name ≠ "First".toList ∧
    (listApplicationsParse asciiToLower duplicateKeysFile).iconName ≠ "first".toList ∧
    (listApplicationsParse asciiToLower duplicateKeysFile).exec ≠ "first".toList ∧
    (addTileParse duplicateKeysFile).name ≠ "First".toList ∧
    (addTileParse duplicateKeysFile).icon ≠ "first".toList ∧
    (addTileParse duplicateKeysFile).command ≠ "first".toList ∧
    (listApplicationsParse asciiToLower duplicateKeysFile).name = "Second".toList ∧
    (listApplicationsParse asciiToLower duplicateKeysFile).iconName = "second".toList ∧
    (listApplicationsParse asciiToLower duplicateKeysFile).exec = "second".toList ∧
    (addTileParse duplicateKeysFile).name = "Second".toList ∧
    (addTileParse duplicateKeysFile).icon = "second".toList ∧
    (addTileParse duplicateKeysFile).command = "second".toList ∧
    (addDesktopFileParse (AppModel.resolveIcon (fun _ => false) "/home/u".toList)
      duplicateKeysFile).name = "First".toList ∧
    (addDesktopFileParse (AppModel.resolveIcon (fun _ => false) "/home/u".toList)
      duplicateKeysFile).exec = "first".toList := by
  decide

/-! ### C4: field codes -/

theorem stripFieldCodes_cons_of_ne (d : Char) (rest : QString) (hd : d ≠ '%') :
    stripFieldCodes (d :: rest) = d :: stripFieldCodes rest := by
  cases rest with
  | nil => rfl
  | cons e r => simp [stripFieldCodes, hd]

theorem hasFieldCode_cons_of_ne (c : Char) (s : QString) (hc : c ≠ '%') :
    hasFieldCode (c :: s) = hasFieldCode s := by
  cases s with
  | nil => rfl
  | cons e r => simp [hasFieldCode, hc]

theorem hasDoublePercent_tail (c : Char) (s : QString)
    (h : hasDoublePercent (c :: s) = false) : hasDoublePercent s = false := by
  cases s with
  | nil => rfl
  | cons e r =>
    simp only [hasDoublePercent, Bool.or_eq_false_iff] at h
    exact h.2

theorem hasFieldCode_stripFieldCodes (s : QString) (h : hasDoublePercent s = false) :
    hasFieldCode (stripFieldCodes s) = false := by
  induction s using stripFieldCodes.induct with
  | case1 => rfl
  | case2 c => rfl
  | case3 c d rest hm ih =>
    have hstrip : stripFieldCodes (c :: d :: rest) = stripFieldCodes rest := by
      simp only [stripFieldCodes]
      rw [if_pos hm]
    rw [hstrip]
    exact ih (hasDoublePercent_tail _ _ (hasDoublePercent_tail _ _ h))
  | case4 c d rest hm ih =>
    have ih' := ih (hasDoublePercent_tail _ _ h)
    have hstrip : stripFieldCodes (c :: d :: rest) = c :: stripFieldCodes (d :: rest) := by
      simp only [stripFieldCodes]
      rw [if_neg hm]
    rw [hstrip]
    by_cases hc : c = '%'
    · subst hc
      have hd : d ≠ '%' := by
        intro hd
        subst hd
        simp [hasDoublePercent] at h
      have hl : isFieldCodeLetter d = false := by simpa using hm
      rw [stripFieldCodes_cons_of_ne d rest hd] at ih' ⊢
      simp only [hasFieldCode, hl, Bool.and_false, Bool.false_or]
      exact ih'
    · rw [hasFieldCode_cons_of_ne c _ hc]
      exact ih'

theorem readLoop_invariant {σ : Type} (step : σ → QString → Option σ) (P : σ → Prop)
    (lines : List QString)
    (hstep : ∀ st m st2, m ∈ lines → P st → step st m = some st2 → P st2) :
    ∀ st, P st → P (readLoop step lines st) := by
  induction lines with
  | nil => intro st h; exact h
  | cons m r ih =>
    intro st h
    simp only [readLoop]
    cases hs : step st m with
    | none => exact h
    | some st2 =>
      exact ih (fun s a s2 ha => hstep s a s2 (List.mem_cons_of_mem _ ha)) st2
        (hstep st m st2 (List.mem_cons_self _ _) h hs)

/-- C4 (as the code has it): the stored command is the trimmed `Exec=` value after
one left-to-right pass that deletes each match of `%[UuFfDdNnVvMm]`; when no
`Exec=` value of the file has two `%` in a row, the command either parser stores
contains no field-code token. -/
theorem C4_no_field_code_without_double_percent (toLower : QString → QString)
    (lines : List QString)
    (h : ∀ l ∈ lines, hasKey "Exec=".toList l = true →
      hasDoublePercent (keyValue 5 l) = false) :
    hasFieldCode (listApplicationsParse toLower lines).exec = false ∧
    hasFieldCode (addTileParse lines).command = false := by
  constructor
  · refine readLoop_invariant (listApplicationsStep toLower)
      (fun st => hasFieldCode st.exec = false) lines ?_ AppScan.init rfl
    intro st m st2 hm hP hs
    by_cases hk : hasKey "Exec=".toList m = true
    · have hv := hasFieldCode_stripFieldCodes _ (h m hm hk)
      simp only [hasKey] at hk
      simp only [keyValue] at hv
      simp only [listApplicationsStep] at hs
      split_ifs at hs <;> simp only [Option.some.injEq, reduceCtorEq] at hs <;>
        rw [← hs] <;> first | exact hP | exact hv
    · have hk' : hasKey "Exec=".toList m = false := by simpa using hk
      show hasFieldCode st2.exec = false
      rw [listApplicationsStep_keeps_exec toLower st m st2 hs hk']
      exact hP
  · refine readLoop_invariant addTileStep
      (fun st => hasFieldCode st.command = false) lines ?_ TileScan.init rfl
    intro st m st2 hm hP hs
    by_cases hk : hasKey "Exec=".toList m = true
    · have hv := hasFieldCode_stripFieldCodes _ (h m hm hk)
      simp only [hasKey] at hk
      simp only [keyValue] at hv
      simp only [addTileStep] at hs
      split_ifs at hs <;> simp only [Option.some.injEq, reduceCtorEq] at hs <;>
        rw [← hs] <;> first | exact hP | exact hv
    · have hk' : hasKey "Exec=".toList m = false := by simpa using hk
      show hasFieldCode st2.command = false
      rw [addTileStep_keeps_command st m st2 hs hk']
      exact hP

/-- C4 at a concrete file with two field codes in its `Exec=` value. -/
theorem C4_no_field_code_without_double_percent_witness :
    (∀ l ∈ ["[Desktop Entry]".toList, "Exec=foo %U --x %f".toList],
      hasKey "Exec=".toList l = true → hasDoublePercent (keyValue 5 l) = false) ∧
    hasFieldCode (listApplicationsParse asciiToLower
      ["[Desktop Entry]".toList, "Exec=foo %U --x %f".toList]).exec = false :=
  ⟨by decide,
   (C4_no_field_code_without_double_percent asciiToLower
      ["[Desktop Entry]".toList, "Exec=foo %U --x %f".toList] (by decide)).1⟩

/-- C4 as stated fails: for the line `Exec=%%UU` the pass deletes the one match
`%U` in the middle and both parsers store `%U`, which is a field-code token. -/
theorem C4_field_code_survives :
    (listApplicationsParse asciiToLower
      ["[Desktop Entry]".toList, "Exec=%%UU".toList]).exec = "%U".toList ∧
    hasFieldCode (listApplicationsParse asciiToLower
      ["[Desktop Entry]".toList, "Exec=%%UU".toList]).exec = true ∧
    (addTileParse ["[Desktop Entry]".toList, "Exec=%%UU".toList]).command = "%U".toList ∧
    hasFieldCode (addTileParse ["[Desktop Entry]".toList, "Exec=%%UU".toList]).command = true := by
  decide

/-! ### C5: which files the catalog scan accepts -/

theorem hasKey_name_eq_false_of_noDisplay {l : QString}
    (h : hasKey "NoDisplay=".toList l = true) : hasKey "Name=".toList l = false := by
  simp only [hasKey] at h ⊢
  generalize trimmedBytes l = s at h ⊢
  match s, h with
  | [], h => simp [startsWith] at h
  | [_], h => simp [startsWith] at h
  | a :: b :: t, h =>
    simp only [String.toList, startsWith, Bool.and_eq_true, beq_iff_eq] at h
    have hb : b = 'o' := h.2.1
    subst hb
    simp [startsWith]

theorem listApplicationsStep_noDisplay (toLower : QString → QString) (st : AppScan)
    (l : QString) (hs : st.inMainSection = true) (hk : hasKey "NoDisplay=".toList l = true)
    (hv : toLower (keyValue 10 l) = "true".toList) :
    listApplicationsStep toLower st l = some { st with noDisplay := true } := by
  have hh : isHeader l = false := isHeader_eq_false_of_hasKey hk (by decide)
  have hn : hasKey "Name=".toList l = false := hasKey_name_eq_false_of_noDisplay hk
  have he : hasKey "Exec=".toList l = false := startsWith_head_ne hk (by decide)
  have hi : hasKey "Icon=".toList l = false := startsWith_head_ne hk (by decide)
  simp only [hasKey, isHeader, keyValue] at hk hh hn he hi hv
  simp only [listApplicationsStep, hh, hs, hk, hn, he, hi, hv, Bool.false_eq_true, if_false,
    Bool.not_true, if_true, Bool.true_and, decide_True]

theorem listApplicationsStep_noDisplay_cases (toLower : QString → QString) (st : AppScan)
    (m : QString) (st2 : AppScan) (h : listApplicationsStep toLower st m = some st2) :
    st2.noDisplay = st.noDisplay ∨
      (st.inMainSection = true ∧ hasKey "NoDisplay=".toList m = true ∧
        toLower (keyValue 10 m) = "true".toList) := by
  simp only [listApplicationsStep] at h
  split_ifs at h with h1 h2 h3 h4 h5 h6 h7 h8 <;>
    simp only [Option.some.injEq, reduceCtorEq] at h <;>
    first
    | (left; rw [← h]; done)
    | (right
       simp only [Bool.and_eq_true, decide_eq_true_eq] at h8
       exact ⟨by simpa using h4, h8.1, h8.2⟩)

theorem readLoop_noDisplay_mono (toLower : QString → QString) (lines : List QString) :
    ∀ st : AppScan, st.noDisplay = true →
      (readLoop (listApplicationsStep toLower) lines st).noDisplay = true := by
  refine readLoop_invariant (listApplicationsStep toLower) (fun st => st.noDisplay = true)
    lines ?_
  intro st m st2 _ hP hs
  rcases listApplicationsStep_noDisplay_cases toLower st m st2 hs with h | h
  · show st2.noDisplay = true
    rw [h]; exact hP
  · rw [listApplicationsStep_noDisplay toLower st m h.1 h.2.1 h.2.2] at hs
    simp only [Option.some.injEq] at hs
    show st2.noDisplay = true
    rw [← hs]

theorem readLoop_noDisplay_source (toLower : QString → QString) (post : List QString) :
    ∀ (done : List QString) (st : AppScan),
      scanLines (listApplicationsStep toLower) done AppScan.init = some st →
      (readLoop (listApplicationsStep toLower) post st).noDisplay = true →
      st.noDisplay = true ∨
        ∃ q l r, post = q ++ l :: r ∧ inMainSectionAt (done ++ q) = true ∧
          hasKey "NoDisplay=".toList l = true ∧ toLower (keyValue 10 l) = "true".toList := by
  induction post with
  | nil => intro done st _ h; exact Or.inl h
  | cons m r ih =>
    intro done st hscan h
    simp only [readLoop] at h
    cases hstep : listApplicationsStep toLower st m with
    | none => rw [hstep] at h; exact Or.inl h
    | some st2 =>
      rw [hstep] at h
      have hscan2 : scanLines (listApplicationsStep toLower) (done ++ [m]) AppScan.init =
          some st2 := by
        rw [scanLines_append, hscan]
        simp [scanLines, hstep]
      rcases ih (done ++ [m]) st2 hscan2 h with h2 | ⟨q, l, r', hr, hpos, hk, hv⟩
      · rcases listApplicationsStep_noDisplay_cases toLower st m st2 hstep with h3 | h3
        · left; rw [← h3]; exact h2
        · right
          refine ⟨[], m, r, rfl, ?_, h3.2.1, h3.2.2⟩
          rw [List.append_nil,
            ← scanLines_sec_init (listApplicationsStep_sectionLoop toLower) done AppScan.init
              st rfl hscan]
          exact h3.1
      · right
        refine ⟨m :: q, l, r', by rw [hr]; rfl, ?_, hk, hv⟩
        simpa using hpos

theorem noDisplay_iff (toLower : QString → QString) (lines : List QString) :
    (listApplicationsParse toLower lines).noDisplay = true ↔ hasNoDisplayTrue toLower lines := by
  constructor
  · intro h
    rcases readLoop_noDisplay_source toLower lines [] AppScan.init rfl h with h0 | h0
    · cases h0
    · obtain ⟨q, l, r, hr, hpos, hk, hv⟩ := h0
      exact ⟨q, l, r, hr, by simpa using hpos, hk, hv⟩
  · rintro ⟨pre, l, post, hr, hpos, hk, hv⟩
    obtain ⟨st, hscan, hsec⟩ := scanLines_of_inMain (listApplicationsStep_sectionLoop toLower)
      AppScan.init rfl pre hpos
    rw [hr, listApplicationsParse, readLoop_append, hscan]
    simp only [readLoop, listApplicationsStep_noDisplay toLower st l hsec hk hv]
    exact readLoop_noDisplay_mono toLower post _ rfl

/-- C5: a readable file is given an entry by the catalog scan exactly when its
parsed name is non-empty, its command after field-code stripping is non-empty and
its `[Desktop Entry]` section (the lines under that header and before the first
`[Desktop Action` header) has no `NoDisplay=` line whose trimmed value lower-cases
to `true`; the entry carries the parsed name and command and the path of the file;
an unreadable file is given none; the collected list holds exactly the entries so
given. -/
theorem C5_catalog_filter (toLower : QString → QString) (fileExists : QString → Bool)
    (home path : QString) (lines : List QString)
    (files : List (QString × Option (List QString))) :
    ((∃ e, scanDesktopFile toLower fileExists home path (some lines) = some e) ↔
      ((listApplicationsParse toLower lines).name ≠ [] ∧
       (listApplicationsParse toLower lines).exec ≠ [] ∧
       ¬ hasNoDisplayTrue toLower lines)) ∧
    (∀ e, scanDesktopFile toLower fileExists home path (some lines) = some e →
      e.name = (listApplicationsParse toLower lines).name ∧
      e.command = (listApplicationsParse toLower lines).exec ∧
      e.desktopFilePath = path) ∧
    (hasNoDisplayTrue toLower lines →
      scanDesktopFile toLower fileExists home path (some lines) = none) ∧
    scanDesktopFile toLower fileExists home path none = none ∧
    (∀ e, e ∈ collectApplications toLower fileExists home files ↔
      ∃ f ∈ files, scanDesktopFile toLower fileExists home f.1 f.2 = some e) := by
  have hnd := noDisplay_iff toLower lines
  refine ⟨?_, ?_, ?_, rfl, ?_⟩
  · simp only [scanDesktopFile]
    split_ifs with hc
    · simp only [Bool.or_eq_true, List.isEmpty_iff] at hc
      simp only [reduceCtorEq, exists_false, false_iff, not_and, not_not]
      intro h1 h2
      rcases hc with (hc | hc) | hc
      · exact absurd hc h1
      · exact absurd hc h2
      · exact hnd.1 hc
    · simp only [Bool.or_eq_true, List.isEmpty_iff, not_or] at hc
      simp only [Option.some.injEq, exists_eq', true_iff]
      exact ⟨hc.1.1, hc.1.2, fun h => hc.2 (hnd.2 h)⟩
  · intro e he
    simp only [scanDesktopFile] at he
    split_ifs at he
    simp only [Option.some.injEq] at he
    rw [← he]
    exact ⟨rfl, rfl, rfl⟩
  · intro h
    simp only [scanDesktopFile, hnd.2 h, Bool.or_true, if_true]
  · intro e
    simp only [collectApplications, List.mem_filterMap]

/-- C5 at a concrete file: `NoDisplay=True` in the main section excludes the file
although `Name=` and `Exec=` are present. -/
theorem C5_catalog_filter_witness :
    hasNoDisplayTrue asciiToLower
      ["[Desktop Entry]".toList, "Name=Foo".toList, "Exec=foo".toList,
        "NoDisplay=True".toList] ∧
    scanDesktopFile asciiToLower (fun _ => false) "/home/u".toList "/a/foo.desktop".toList
      (some ["[Desktop Entry]".toList, "Name=Foo".toList, "Exec=foo".toList,
        "NoDisplay=True".toList]) = none :=
  have h : hasNoDisplayTrue asciiToLower
      ["[Desktop Entry]".toList, "Name=Foo".toList, "Exec=foo".toList,
        "NoDisplay=True".toList] :=
    ⟨["[Desktop Entry]".toList, "Name=Foo".toList, "Exec=foo".toList],
      "NoDisplay=True".toList, [], rfl, by decide, by decide, by decide⟩
  ⟨h, (C5_catalog_filter asciiToLower (fun _ => false) "/home/u".toList
    "/a/foo.desktop".toList _ []).2.2.1 h⟩

/-! ### JSON objects -/

theorem QJsonObject.value_insert_self (o : QJsonObject) (k : QString) (v : JsonValue) :
    QJsonObject.value (QJsonObject.insert o k v) k = v := by
  induction o with
  | nil => simp [QJsonObject.insert, QJsonObject.value]
  | cons m rest ih =>
    obtain ⟨k', w⟩ := m
    simp only [QJsonObject.insert]
    split_ifs with h1 h2
    · simp [QJsonObject.value]
    · simp [QJsonObject.value]
    · simp [QJsonObject.value, h1, ih]

theorem QJsonObject.value_insert_ne (o : QJsonObject) (k j : QString) (v : JsonValue)
    (hne : j ≠ k) :
    QJsonObject.value (QJsonObject.insert o k v) j = QJsonObject.value o j := by
  induction o with
  | nil => simp [QJsonObject.insert, QJsonObject.value, hne]
  | cons m rest ih =>
    obtain ⟨k', w⟩ := m
    simp only [QJsonObject.insert]
    split_ifs with h1 h2
    · subst h1
      simp [QJsonObject.value, hne]
    · simp [QJsonObject.value, hne]
    · simp only [QJsonObject.value, ih]

theorem appEntry_ofJson_toJson (a : AppEntry) : AppEntry.ofJson a.toJson = a := by
  have e1 : "name".toList ≠ "exec".toList := by decide
  have e2 : "name".toList ≠ "icon".toList := by decide
  have e3 : "icon".toList ≠ "exec".toList := by decide
  simp only [AppEntry.ofJson, AppEntry.toJson, JsonValue.toObject,
    QJsonObject.value_insert_self, QJsonObject.value_insert_ne _ _ _ _ e1,
    QJsonObject.value_insert_ne _ _ _ _ e2, QJsonObject.value_insert_ne _ _ _ _ e3,
    JsonValue.toStr]

theorem tile_ofJson_toJson (t : Tile) : Tile.ofJson t.toJson = t := by
  have n1 : "name".toList ≠ "icon".toList := by decide
  have n2 : "name".toList ≠ "desktopFile".toList := by decide
  have n3 : "name".toList ≠ "command".toList := by decide
  have n4 : "name".toList ≠ "x".toList := by decide
  have n5 : "name".toList ≠ "y".toList := by decide
  have n6 : "name".toList ≠ "size".toList := by decide
  have i2 : "icon".toList ≠ "desktopFile".toList := by decide
  have i3 : "icon".toList ≠ "command".toList := by decide
  have i4 : "icon".toList ≠ "x".toList := by decide
  have i5 : "icon".toList ≠ "y".toList := by decide
  have i6 : "icon".toList ≠ "size".toList := by decide
  have d3 : "desktopFile".toList ≠ "command".toList := by decide
  have d4 : "desktopFile".toList ≠ "x".toList := by decide
  have d5 : "desktopFile".toList ≠ "y".toList := by decide
  have d6 : "desktopFile".toList ≠ "size".toList := by decide
  have c4 : "command".toList ≠ "x".toList := by decide
  have c5 : "command".toList ≠ "y".toList := by decide
  have c6 : "command".toList ≠ "size".toList := by decide
  have x5 : "x".toList ≠ "y".toList := by decide
  have x6 : "x".toList ≠ "size".toList := by decide
  have y6 : "y".toList ≠ "size".toList := by decide
  simp only [Tile.ofJson, Tile.toJson, JsonValue.toObject, QJsonObject.value_insert_self,
    QJsonObject.value_insert_ne _ _ _ _ n1, QJsonObject.value_insert_ne _ _ _ _ n2,
    QJsonObject.value_insert_ne _ _ _ _ n3, QJsonObject.value_insert_ne _ _ _ _ n4,
    QJsonObject.value_insert_ne _ _ _ _ n5, QJsonObject.value_insert_ne _ _ _ _ n6,
    QJsonObject.value_insert_ne _ _ _ _ i2, QJsonObject.value_insert_ne _ _ _ _ i3,
    QJsonObject.value_insert_ne _ _ _ _ i4, QJsonObject.value_insert_ne _ _ _ _ i5,
    QJsonObject.value_insert_ne _ _ _ _ i6, QJsonObject.value_insert_ne _ _ _ _ d3,
    QJsonObject.value_insert_ne _ _ _ _ d4, QJsonObject.value_insert_ne _ _ _ _ d5,
    QJsonObject.value_insert_ne _ _ _ _ d6, QJsonObject.value_insert_ne _ _ _ _ c4,
    QJsonObject.value_insert_ne _ _ _ _ c5, QJsonObject.value_insert_ne _ _ _ _ c6,
    QJsonObject.value_insert_ne _ _ _ _ x5, QJsonObject.value_insert_ne _ _ _ _ x6,
    QJsonObject.value_insert_ne _ _ _ _ y6, JsonValue.toStr, JsonValue.toDouble]

theorem map_ofJson_saveAppsArray (l : List AppEntry) :
    (saveAppsArray l).map AppEntry.ofJson = l.filter (fun a => !a.empty) := by
  induction l with
  | nil => rfl
  | cons a rest ih =>
    simp only [saveAppsArray]
    by_cases h : a.empty = true
    · simp [h, ih]
    · simp [h, ih, appEntry_ofJson_toJson]

/-! ### C6 and C7: persistence round trips -/

/-- C6: loading the document `saveApps` writes for a catalog `l` gives, whatever the
catalog held before, exactly the entries of `l` whose name and exec are not both
empty, in order and with equal fields; no element of the persisted array reads
back as an entry with name and exec both empty; the catalog holding only
Term/xterm persists as the one-object array with members exec "xterm", icon ""
and name "Term" (objects list their members in key order) and reloads into an
empty catalog as that single entry. -/
theorem C6_catalog_round_trip (prior l : List AppEntry) :
    (AppModel.loadApps prior (PersistedFile.content (AppModel.saveApps l))).items =
      l.filter (fun a => !a.empty) ∧
    (∀ v ∈ saveAppsArray l, (AppEntry.ofJson v).empty = false) ∧
    AppModel.saveApps [{ name := "Term".toList, icon := [], exec := "xterm".toList }] =
      JsonDocument.array [JsonValue.object
        [("exec".toList, JsonValue.string "xterm".toList),
         ("icon".toList, JsonValue.string []),
         ("name".toList, JsonValue.string "Term".toList)]] ∧
    (AppModel.loadApps [] (PersistedFile.content (AppModel.saveApps
      [{ name := "Term".toList, icon := [], exec := "xterm".toList }]))).items =
      [{ name := "Term".toList, icon := [], exec := "xterm".toList }] := by
  have hload : ∀ p m : List AppEntry,
      (AppModel.loadApps p (PersistedFile.content (AppModel.saveApps m))).items =
        m.filter (fun a => !a.empty) := by
    intro p m
    simp only [AppModel.loadApps, AppModel.saveApps, JsonDocument.isArray, Bool.not_true,
      Bool.false_eq_true, if_false, JsonDocument.toArray]
    exact map_ofJson_saveAppsArray m
  refine ⟨hload prior l, ?_, rfl, ?_⟩
  · intro v hv
    have hmem : AppEntry.ofJson v ∈ (saveAppsArray l).map AppEntry.ofJson :=
      List.mem_map_of_mem _ hv
    rw [map_ofJson_saveAppsArray] at hmem
    simpa using (List.mem_filter.1 hmem).2
  · rw [hload]
    rfl

/-- C7: loading the document `TileModel::save` writes for a tile list gives back
that list, whatever the store held before: the same tiles in the same order with
name, icon, desktopFile, command, x, y and size equal. It holds for every tile
list, so in particular for those without an entirely empty tile. -/
theorem C7_tile_round_trip (prior tiles : List Tile) :
    (TileModel.load prior (PersistedFile.content (TileModel.save tiles))).items = tiles := by
  simp only [TileModel.load, TileModel.save, JsonDocument.toArray, List.map_map]
  have : Tile.ofJson ∘ Tile.toJson = id := funext tile_ofJson_toJson
  rw [this, List.map_id]

/-! ### C9: indices out of range -/

/-- C9: with an index below 0 or not below the length, `removeApp`, `moveApp` (the
index as source or as destination), `activate`, `close`, `removeTile`,
`updateTilePosition` and `resizeTile` return with the list as it was, no signal
emitted, nothing written to the persistence file, no helper started and no timer
armed. Each function is total, and its out-of-range branch does not index the
list. -/
theorem C9_out_of_range_is_noop (apps : List AppEntry) (tiles : List Tile)
    (windows : List WindowEntry) (helper : Option QString) (startOk : Bool) :
    (∀ i : Int, i < 0 ∨ (apps.length : Int) ≤ i →
      AppModel.removeApp apps i = Outcome.unchanged apps ∧
      ∀ j : Int, AppModel.moveApp apps i j = Outcome.unchanged apps ∧
        AppModel.moveApp apps j i = Outcome.unchanged apps) ∧
    (∀ i : Int, i < 0 ∨ (windows.length : Int) ≤ i →
      RunningWindowModel.activate windows helper startOk i = Outcome.unchanged windows ∧
      RunningWindowModel.close windows helper startOk i = Outcome.unchanged windows) ∧
    (∀ i : Int, i < 0 ∨ (tiles.length : Int) ≤ i →
      TileModel.removeTile tiles i = Outcome.unchanged tiles ∧
      (∀ x y : ℚ, TileModel.updateTilePosition tiles i x y = Outcome.unchanged tiles) ∧
      (∀ size : QString, TileModel.resizeTile tiles i size = Outcome.unchanged tiles)) := by
  refine ⟨fun i hi => ⟨?_, fun j => ⟨?_, ?_⟩⟩, fun i hi => ⟨?_, ?_⟩,
    fun i hi => ⟨?_, fun x y => ?_, fun size => ?_⟩⟩
  · simp only [AppModel.removeApp, if_pos hi]
  · have h : i < 0 ∨ j < 0 ∨ (apps.length : Int) ≤ i ∨ (apps.length : Int) ≤ j ∨ i = j := by
      rcases hi with h | h
      · exact Or.inl h
      · exact Or.inr (Or.inr (Or.inl h))
    simp only [AppModel.moveApp, if_pos h]
  · have h : j < 0 ∨ i < 0 ∨ (apps.length : Int) ≤ j ∨ (apps.length : Int) ≤ i ∨ j = i := by
      rcases hi with h | h
      · exact Or.inr (Or.inl h)
      · exact Or.inr (Or.inr (Or.inr (Or.inl h)))
    simp only [AppModel.moveApp, if_pos h]
  · simp only [RunningWindowModel.activate, dif_pos hi]
  · simp only [RunningWindowModel.close, dif_pos hi]
  · simp only [TileModel.removeTile, if_pos hi]
  · simp only [TileModel.updateTilePosition, dif_pos hi]
  · simp only [TileModel.resizeTile, dif_pos hi]

/-- C9 at a concrete call: removing index 1 of a catalog of one entry, and index
-1, changes nothing. -/
theorem C9_out_of_range_is_noop_witness :
    AppModel.removeApp [{ name := "Term".toList, icon := [], exec := "xterm".toList }] 1 =
      Outcome.unchanged [{ name := "Term".toList, icon := [], exec := "xterm".toList }] ∧
    AppModel.removeApp [{ name := "Term".toList, icon := [], exec := "xterm".toList }] (-1) =
      Outcome.unchanged [{ name := "Term".toList, icon := [], exec := "xterm".toList }] :=
  ⟨((C9_out_of_range_is_noop [{ name := "Term".toList, icon := [], exec := "xterm".toList }]
      [] [] none false).1 1 (Or.inr (by decide))).1,
   ((C9_out_of_range_is_noop [{ name := "Term".toList, icon := [], exec := "xterm".toList }]
      [] [] none false).1 (-1) (Or.inl (by decide))).1⟩

/-! ### C10: positional notifications of the catalog -/

/-- C10: on a catalog of length `n`, a successful `addDesktopFile` (the file opens
and its parsed name and exec are not both empty) emits an insert for rows
`[n, n]`; `removeApp i` with `i` in range emits a remove for rows `[i, i]`;
`moveApp from to` with both in range and different emits a move of row `from` to
destination `to + 1` when `to > from` and `to` otherwise, a destination that is
neither `from` nor `from + 1`. In each case that is the only positional signal,
it is followed by `countChanged`, and no reset is emitted. -/
theorem C10_positional_notifications (fileExists : QString → Bool) (home : QString)
    (apps : List AppEntry) :
    (∀ lines : List QString,
      ¬ ((addDesktopFileParse (AppModel.resolveIcon fileExists home) lines).name = [] ∧
         (addDesktopFileParse (AppModel.resolveIcon fileExists home) lines).exec = []) →
      (AppModel.addDesktopFile fileExists home apps (some lines)).signals =
        [Signal.rowsInserted apps.length apps.length, Signal.countChanged] ∧
      onePositional (AppModel.addDesktopFile fileExists home apps (some lines)).signals
        (Signal.rowsInserted apps.length apps.length)) ∧
    (∀ i : Int, 0 ≤ i → i < apps.length →
      (AppModel.removeApp apps i).signals = [Signal.rowsRemoved i i, Signal.countChanged] ∧
      onePositional (AppModel.removeApp apps i).signals (Signal.rowsRemoved i i)) ∧
    (∀ fromIdx toIdx : Int, 0 ≤ fromIdx → fromIdx < apps.length → 0 ≤ toIdx →
      toIdx < apps.length → fromIdx ≠ toIdx →
      ∃ dest : Int, dest = (if toIdx > fromIdx then toIdx + 1 else toIdx) ∧
        dest ≠ fromIdx ∧ dest ≠ fromIdx + 1 ∧
        (AppModel.moveApp apps fromIdx toIdx).signals =
          [Signal.rowsMoved fromIdx fromIdx dest, Signal.countChanged] ∧
        onePositional (AppModel.moveApp apps fromIdx toIdx).signals
          (Signal.rowsMoved fromIdx fromIdx dest)) := by
  refine ⟨?_, ?_, ?_⟩
  · intro lines h
    have hc : ¬ (((addDesktopFileParse (AppModel.resolveIcon fileExists home) lines).name.isEmpty
        && (addDesktopFileParse (AppModel.resolveIcon fileExists home) lines).exec.isEmpty)
        = true) := by
      simpa [List.isEmpty_iff] using h
    have hs : (AppModel.addDesktopFile fileExists home apps (some lines)).signals =
        [Signal.rowsInserted apps.length apps.length, Signal.countChanged] := by
      simp only [AppModel.addDesktopFile, if_neg hc, Outcome.mutated]
    rw [hs]
    exact ⟨rfl, by simp [onePositional, Signal.isPositional]⟩
  · intro i h0 h1
    have hc : ¬ (i < 0 ∨ (apps.length : Int) ≤ i) := by omega
    have hs : (AppModel.removeApp apps i).signals =
        [Signal.rowsRemoved i i, Signal.countChanged] := by
      simp only [AppModel.removeApp, if_neg hc, Outcome.mutated]
    rw [hs]
    exact ⟨rfl, by simp [onePositional, Signal.isPositional]⟩
  · intro fromIdx toIdx hf0 hf1 ht0 ht1 hne
    have hc : ¬ (fromIdx < 0 ∨ toIdx < 0 ∨ (apps.length : Int) ≤ fromIdx ∨
        (apps.length : Int) ≤ toIdx ∨ fromIdx = toIdx) := by omega
    have hs : (AppModel.moveApp apps fromIdx toIdx).signals =
        [Signal.rowsMoved fromIdx fromIdx (if toIdx > fromIdx then toIdx + 1 else toIdx),
         Signal.countChanged] := by
      simp only [AppModel.moveApp, if_neg hc, Outcome.mutated]
    refine ⟨_, rfl, ?_, ?_, hs, ?_⟩
    · split_ifs <;> omega
    · split_ifs <;> omega
    · rw [hs]
      simp [onePositional, Signal.isPositional]

/-- C10 at a concrete call: adding the terminal file to an empty catalog emits the
insert for rows `[0, 0]`. -/
theorem C10_positional_notifications_witness :
    ¬ ((addDesktopFileParse (AppModel.resolveIcon (fun _ => false) "/home/u".toList)
          termDesktopFile).name = [] ∧
       (addDesktopFileParse (AppModel.resolveIcon (fun _ => false) "/home/u".toList)
          termDesktopFile).exec = []) ∧
    (AppModel.addDesktopFile (fun _ => false) "/home/u".toList [] (some termDesktopFile)).signals =
      [Signal.rowsInserted 0 0, Signal.countChanged] :=
  ⟨by decide,
   ((C10_positional_notifications (fun _ => false) "/home/u".toList []).1 termDesktopFile
      (by decide)).1⟩

/-! ### C8: moving a catalog entry -/

theorem drop_length_add {α : Type} (A L : List α) (n : Nat) :
    (A ++ L).drop (A.length + n) = L.drop n := by
  induction A with
  | nil => simp
  | cons a A ih => simp [Nat.succ_add, ih]

theorem insertIdx_length_add {α : Type} (P Q : List α) (n : Nat) (x : α) :
    List.insertIdx (P.length + n) x (P ++ Q) = P ++ List.insertIdx n x Q := by
  induction P with
  | nil => simp
  | cons a P ih =>
    have : (a :: P).length + n = (P.length + n) + 1 := by simp; omega
    rw [this]
    simp [List.insertIdx_succ_cons, ih]

theorem eraseIdx_length_add {α : Type} (P Q : List α) (n : Nat) :
    List.eraseIdx (P ++ Q) (P.length + n) = P ++ List.eraseIdx Q n := by
  rw [List.eraseIdx_append_of_length_le (by omega)]
  congr 2
  omega

theorem getElem?_length_add {α : Type} (P Q : List α) (n : Nat) :
    (P ++ Q)[P.length + n]? = Q[n]? := by
  rw [List.getElem?_append_right (by omega)]
  congr 1
  omega

theorem stdRotate_right {α : Type} (A B C : List α) (x : α) :
    stdRotate (A ++ x :: (B ++ C)) A.length (A.length + 1) (A.length + B.length + 1) =
      A ++ (B ++ x :: C) := by
  have h1 : (A ++ x :: (B ++ C)).drop (A.length + 1) = B ++ C := by
    rw [drop_length_add]; rfl
  have h2 : (A ++ x :: (B ++ C)).drop A.length = x :: (B ++ C) := by simp
  have h3 : (A ++ x :: (B ++ C)).drop (A.length + B.length + 1) = C := by
    rw [Nat.add_assoc, drop_length_add]
    simp
  have h4 : A.length + B.length + 1 - (A.length + 1) = B.length := by omega
  have h5 : A.length + 1 - A.length = 1 := by omega
  simp only [stdRotate, h1, h2, h3, h4, h5, List.take_left, List.take_succ_cons, List.take_zero]
  simp

theorem stdRotate_left {α : Type} (A B C : List α) (x : α) :
    stdRotate (A ++ (B ++ x :: C)) A.length (A.length + B.length) (A.length + B.length + 1) =
      A ++ x :: (B ++ C) := by
  have h1 : (A ++ (B ++ x :: C)).drop (A.length + B.length) = x :: C := by
    rw [drop_length_add]
    simp
  have h2 : (A ++ (B ++ x :: C)).drop A.length = B ++ x :: C := by simp
  have h3 : (A ++ (B ++ x :: C)).drop (A.length + B.length + 1) = C := by
    rw [Nat.add_assoc, drop_length_add]
    simp
  have h4 : A.length + B.length + 1 - (A.length + B.length) = 1 := by omega
  have h5 : A.length + B.length - A.length = B.length := by omega
  simp only [stdRotate, h1, h2, h3, h4, h5, List.take_left, List.take_succ_cons, List.take_zero]
  simp

theorem isListMove_right {α : Type} (A B C : List α) (x : α) (hB : 0 < B.length) :
    IsListMove (A ++ x :: (B ++ C)) (A ++ (B ++ x :: C)) A.length (A.length + B.length) := by
  have hl : (A ++ x :: (B ++ C))[A.length]? = some x := by
    have := getElem?_length_add A (x :: (B ++ C)) 0
    simpa using this
  have hr : (A ++ (B ++ x :: C))[A.length + B.length]? = some x := by
    rw [getElem?_length_add]
    have := getElem?_length_add B (x :: C) 0
    simpa using this
  have he : (A ++ x :: (B ++ C)).eraseIdx A.length = A ++ (B ++ C) := by
    have := eraseIdx_length_add A (x :: (B ++ C)) 0
    simpa using this
  have he' : (A ++ (B ++ x :: C)).eraseIdx (A.length + B.length) = A ++ (B ++ C) := by
    rw [eraseIdx_length_add]
    have := eraseIdx_length_add B (x :: C) 0
    simpa using this
  refine ⟨⟨x, hl, ?_⟩, by rw [hl, hr], by simp; omega, by rw [he, he'], ?_, ?_, ?_⟩
  · rw [he, insertIdx_length_add]
    have := insertIdx_length_add B C 0 x
    simp only [Nat.add_zero, List.insertIdx_zero] at this
    rw [this]
  · intro _ k h1 h2
    obtain ⟨n, rfl⟩ : ∃ n, k = A.length + (n + 1) := ⟨k - A.length - 1, by omega⟩
    have e : A.length + (n + 1) - 1 = A.length + n := by omega
    rw [e, getElem?_length_add, getElem?_length_add]
    have hn : n < B.length := by omega
    simp [List.getElem?_append_left hn]
  · intro h; omega
  · intro k hk
    rcases hk with ⟨h1, _⟩ | ⟨_, h2⟩
    · rw [List.getElem?_append_left h1, List.getElem?_append_left h1]
    · obtain ⟨n, rfl⟩ : ∃ n, k = A.length + (B.length + (n + 1)) :=
        ⟨k - A.length - B.length - 1, by omega⟩
      rw [getElem?_length_add, getElem?_length_add, getElem?_length_add]
      have : B.length + (n + 1) = (B.length + n) + 1 := by omega
      rw [this, List.getElem?_cons_succ, List.getElem?_cons_succ, getElem?_length_add]

theorem isListMove_left {α : Type} (A B C : List α) (x : α) (hB : 0 < B.length) :
    IsListMove (A ++ (B ++ x :: C)) (A ++ x :: (B ++ C)) (A.length + B.length) A.length := by
  have hr : (A ++ x :: (B ++ C))[A.length]? = some x := by
    have := getElem?_length_add A (x :: (B ++ C)) 0
    simpa using this
  have hl : (A ++ (B ++ x :: C))[A.length + B.length]? = some x := by
    rw [getElem?_length_add]
    have := getElem?_length_add B (x :: C) 0
    simpa using this
  have he' : (A ++ x :: (B ++ C)).eraseIdx A.length = A ++ (B ++ C) := by
    have := eraseIdx_length_add A (x :: (B ++ C)) 0
    simpa using this
  have he : (A ++ (B ++ x :: C)).eraseIdx (A.length + B.length) = A ++ (B ++ C) := by
    rw [eraseIdx_length_add]
    have := eraseIdx_length_add B (x :: C) 0
    simpa using this
  refine ⟨⟨x, hl, ?_⟩, by rw [hl, hr], by simp; omega, by rw [he, he'], ?_, ?_, ?_⟩
  · rw [he]
    have := insertIdx_length_add A (B ++ C) 0 x
    simp only [Nat.add_zero, List.insertIdx_zero] at this
    rw [this]
  · intro h; omega
  · intro _ k h1 h2
    obtain ⟨n, rfl⟩ : ∃ n, k = A.length + n := ⟨k - A.length, by omega⟩
    have e : A.length + n + 1 = A.length + (n + 1) := by omega
    rw [e, getElem?_length_add, getElem?_length_add]
    have hn : n < B.length := by omega
    simp [List.getElem?_append_left hn]
  · intro k hk
    rcases hk with ⟨_, h1⟩ | ⟨h2, _⟩
    · rw [List.getElem?_append_left h1, List.getElem?_append_left h1]
    · obtain ⟨n, rfl⟩ : ∃ n, k = A.length + (B.length + (n + 1)) :=
        ⟨k - A.length - B.length - 1, by omega⟩
      rw [getElem?_length_add, getElem?_length_add, getElem?_length_add]
      have : B.length + (n + 1) = (B.length + n) + 1 := by omega
      rw [this, List.getElem?_cons_succ, List.getElem?_cons_succ, getElem?_length_add]

theorem exists_split_three {α : Type} (l : List α) (i j : Nat) (hij : i < j)
    (hj : j < l.length) :
    ∃ A B C x y, l = A ++ x :: (B ++ y :: C) ∧ A.length = i ∧ A.length + B.length + 1 = j := by
  have hi : i < l.length := by omega
  refine ⟨l.take i, (l.drop (i + 1)).take (j - i - 1), l.drop (j + 1), l[i], l[j], ?_, ?_, ?_⟩
  · have h1 : l = l.take i ++ l.drop i := (List.take_append_drop i l).symm
    have h2 : l.drop i = l[i] :: l.drop (i + 1) := List.drop_eq_getElem_cons hi
    have h3 : l.drop (i + 1) =
        (l.drop (i + 1)).take (j - i - 1) ++ (l.drop (i + 1)).drop (j - i - 1) :=
      (List.take_append_drop _ _).symm
    have h4 : (l.drop (i + 1)).drop (j - i - 1) = l.drop j := by
      rw [List.drop_drop]
      congr 1
      omega
    have h5 : l.drop j = l[j] :: l.drop (j + 1) := List.drop_eq_getElem_cons hj
    rw [h4, h5] at h3
    rw [h3] at h2
    rw [h2] at h1
    exact h1
  · simp; omega
  · simp; omega

theorem QList.move_isListMove {α : Type} (l : List α) (f t : Nat) (hf : f < l.length)
    (ht : t < l.length) (hne : f ≠ t) : IsListMove l (QList.move l f t) f t := by
  rcases Nat.lt_or_gt_of_ne hne with hlt | hgt
  · obtain ⟨A, B, C, x, y, hl, hA, hB⟩ := exists_split_three l f t hlt ht
    have e : l = A ++ x :: ((B ++ [y]) ++ C) := by rw [hl]; simp
    have hlen : (B ++ [y]).length = B.length + 1 := by simp
    have ht' : t = A.length + (B ++ [y]).length := by omega
    subst hA
    rw [ht', e]
    have hm : QList.move (A ++ x :: ((B ++ [y]) ++ C)) A.length
        (A.length + (B ++ [y]).length) = A ++ ((B ++ [y]) ++ x :: C) := by
      have h1 : ¬ A.length = A.length + (B ++ [y]).length := by omega
      have h2 : A.length < A.length + (B ++ [y]).length := by omega
      simp only [QList.move, if_neg h1, if_pos h2]
      exact stdRotate_right A (B ++ [y]) C x
    rw [hm]
    exact isListMove_right A (B ++ [y]) C x (by omega)
  · obtain ⟨A, B, C, y, x, hl, hA, hB⟩ := exists_split_three l t f hgt hf
    have e : l = A ++ ((y :: B) ++ x :: C) := by rw [hl]; simp
    have hlen : (y :: B).length = B.length + 1 := by simp
    have hf' : f = A.length + (y :: B).length := by omega
    subst hA
    rw [hf', e]
    have hm : QList.move (A ++ ((y :: B) ++ x :: C)) (A.length + (y :: B).length)
        A.length = A ++ x :: ((y :: B) ++ C) := by
      have h1 : ¬ A.length + (y :: B).length = A.length := by omega
      have h2 : ¬ A.length + (y :: B).length < A.length := by omega
      simp only [QList.move, if_neg h1, if_neg h2]
      exact stdRotate_left A (y :: B) C x
    rw [hm]
    exact isListMove_left A (y :: B) C x (by omega)

/-- C8: for indices `f` and `t` in range and different, `moveApp f t` leaves the
list obtained by removing the element at `f` and inserting it at index `t`: the
moved element is at index `t`, the length is unchanged, the other elements keep
their order (erasing index `t` of the result gives the original without index
`f`), when `t > f` the elements originally at `f+1..t` are each one index lower,
when `t < f` those at `t..f-1` are each one index higher, and elements outside
the range keep their index. -/
theorem C8_moveApp_is_list_move (apps : List AppEntry) (f t : Nat)
    (hf : f < apps.length) (ht : t < apps.length) (hne : f ≠ t) :
    (∃ x, apps[f]? = some x ∧
      (AppModel.moveApp apps f t).items = List.insertIdx t x (apps.eraseIdx f)) ∧
    (AppModel.moveApp apps f t).items[t]? = apps[f]? ∧
    (AppModel.moveApp apps f t).items.length = apps.length ∧
    (AppModel.moveApp apps f t).items.eraseIdx t = apps.eraseIdx f ∧
    (f < t → ∀ k, f < k → k ≤ t → (AppModel.moveApp apps f t).items[k - 1]? = apps[k]?) ∧
    (t < f → ∀ k, t ≤ k → k < f → (AppModel.moveApp apps f t).items[k + 1]? = apps[k]?) ∧
    (∀ k, (k < f ∧ k < t) ∨ (f < k ∧ t < k) →
      (AppModel.moveApp apps f t).items[k]? = apps[k]?) := by
  have hc : ¬ ((f : Int) < 0 ∨ (t : Int) < 0 ∨ (apps.length : Int) ≤ (f : Int) ∨
      (apps.length : Int) ≤ (t : Int) ∨ (f : Int) = (t : Int)) := by omega
  have hitems : (AppModel.moveApp apps f t).items = QList.move apps f t := by
    simp only [AppModel.moveApp, if_neg hc, Outcome.mutated, Int.toNat_ofNat]
  rw [hitems]
  exact QList.move_isListMove apps f t hf ht hne

/-- C8 at a concrete catalog: moving index 0 of a, b, c to index 2 gives b, c, a. -/
theorem C8_moveApp_is_list_move_witness :
    (0 < [AppEntry.mk ['a'] [] [], AppEntry.mk ['b'] [] [], AppEntry.mk ['c'] [] []].length ∧
      2 < [AppEntry.mk ['a'] [] [], AppEntry.mk ['b'] [] [], AppEntry.mk ['c'] [] []].length) ∧
    (AppModel.moveApp
      [AppEntry.mk ['a'] [] [], AppEntry.mk ['b'] [] [], AppEntry.mk ['c'] [] []]
      (0 : Nat) (2 : Nat)).items[2]? = some (AppEntry.mk ['a'] [] []) :=
  ⟨⟨by decide, by decide⟩,
   (C8_moveApp_is_list_move
      [AppEntry.mk ['a'] [] [], AppEntry.mk ['b'] [] [], AppEntry.mk ['c'] [] []]
      0 2 (by decide) (by decide) (by decide)).2.1⟩

/-! ### C11: the diff policy of the window list -/

/-- C11: when the snapshot exists, `loadFromIni` leaves the window list equal to
the candidate list built from its groups; when the candidate list is as long as
the current list and not empty it emits exactly one data-changed notification,
for rows `0..n-1` with all roles, and no reset (none at all when both lists are
empty); when the lengths differ it emits exactly one reset and no data-changed
notification. It writes nothing, starts nothing and arms no timer. -/
theorem C11_loadFromIni_diff_policy (iconFor : QString → QString)
    (windows : List WindowEntry) (groups : List IniGroup) :
    (RunningWindowModel.loadFromIni iconFor windows (some groups)).items =
      groups.map (WindowEntry.ofGroup iconFor) ∧
    (groups.length = windows.length → groups ≠ [] →
      (RunningWindowModel.loadFromIni iconFor windows (some groups)).signals =
        [Signal.dataChanged 0 ((groups.length : Int) - 1) []]) ∧
    (groups.length = windows.length → groups = [] →
      (RunningWindowModel.loadFromIni iconFor windows (some groups)).signals = []) ∧
    (groups.length ≠ windows.length →
      (RunningWindowModel.loadFromIni iconFor windows (some groups)).signals =
        [Signal.modelReset]) ∧
    (RunningWindowModel.loadFromIni iconFor windows (some groups)).saved = [] ∧
    (RunningWindowModel.loadFromIni iconFor windows (some groups)).started = [] ∧
    (RunningWindowModel.loadFromIni iconFor windows (some groups)).timers = [] := by
  by_cases h : groups.length = windows.length
  · have hc : (groups.map (WindowEntry.ofGroup iconFor)).length = windows.length := by
      rw [List.length_map]; exact h
    have hout : RunningWindowModel.loadFromIni iconFor windows (some groups) =
        { items := groups.map (WindowEntry.ofGroup iconFor),
          signals := if (groups.map (WindowEntry.ofGroup iconFor)).isEmpty then []
            else [Signal.dataChanged 0
              (((groups.map (WindowEntry.ofGroup iconFor)).length : Int) - 1) []],
          saved := [], started := [], timers := [] } := by
      simp only [RunningWindowModel.loadFromIni, if_pos hc]
    rw [hout]
    refine ⟨rfl, ?_, ?_, fun hne => absurd h hne, rfl, rfl, rfl⟩
    · intro _ hne
      have he : (groups.map (WindowEntry.ofGroup iconFor)).isEmpty = false := by
        cases groups with
        | nil => exact absurd rfl hne
        | cons g rest => rfl
      show (if (groups.map (WindowEntry.ofGroup iconFor)).isEmpty then []
        else [Signal.dataChanged 0
          (((groups.map (WindowEntry.ofGroup iconFor)).length : Int) - 1) []]) = _
      rw [he, List.length_map]
      rfl
    · intro _ he
      subst he
      rfl
  · have hc : ¬ (groups.map (WindowEntry.ofGroup iconFor)).length = windows.length := by
      rw [List.length_map]; exact h
    have hout : RunningWindowModel.loadFromIni iconFor windows (some groups) =
        { items := groups.map (WindowEntry.ofGroup iconFor), signals := [Signal.modelReset],
          saved := [], started := [], timers := [] } := by
      simp only [RunningWindowModel.loadFromIni, if_neg hc]
    rw [hout]
    exact ⟨rfl, fun he => absurd he h, fun he => absurd he h, fun _ => rfl, rfl, rfl, rfl⟩

/-- C11 at the example transitions: three windows to three windows with one title
changed gives one data-changed notification for rows 0..2 and no reset; three
windows to two gives one reset. -/
theorem C11_loadFromIni_diff_policy_witness :
    (RunningWindowModel.loadFromIni (fun _ => [])
      (threeGroups.map (WindowEntry.ofGroup (fun _ => []))) (some threeGroupsRetitled)).signals =
      [Signal.dataChanged 0 2 []] ∧
    (RunningWindowModel.loadFromIni (fun _ => [])
      (threeGroups.map (WindowEntry.ofGroup (fun _ => []))) (some twoGroups)).signals =
      [Signal.modelReset] :=
  ⟨(C11_loadFromIni_diff_policy (fun _ => [])
      (threeGroups.map (WindowEntry.ofGroup (fun _ => []))) threeGroupsRetitled).2.1
      (by decide) (by decide),
   (C11_loadFromIni_diff_policy (fun _ => [])
      (threeGroups.map (WindowEntry.ofGroup (fun _ => []))) twoGroups).2.2.2.1 (by decide)⟩

/-! ### C12 and C13: loading a payload that is not an array -/

/-- C12: when the persisted payload is not a JSON array (text that does not parse
gives the null document; otherwise an object), `loadApps` returns with the
catalog as it was and emits no signal, so no reset. -/
theorem C12_loadApps_non_array_is_noop (prior : List AppEntry) (doc : JsonDocument)
    (h : doc.isArray = false) :
    AppModel.loadApps prior (PersistedFile.content doc) = Outcome.unchanged prior := by
  simp only [AppModel.loadApps, h, Bool.not_false, if_true]

/-- C12 at a concrete catalog, for an object payload. -/
theorem C12_loadApps_non_array_is_noop_witness :
    (JsonDocument.object []).isArray = false ∧
    AppModel.loadApps [{ name := "Term".toList, icon := [], exec := "xterm".toList }]
      (PersistedFile.content (JsonDocument.object [])) =
      Outcome.unchanged [{ name := "Term".toList, icon := [], exec := "xterm".toList }] :=
  ⟨rfl, C12_loadApps_non_array_is_noop _ (JsonDocument.object []) rfl⟩

/-- C14: for a readable file, `addTileFromDesktopFile` appends one tile to a list of
length `n`: the first `n` tiles are unchanged, the new tile has the path of the
file, the drop coordinates, size `medium`, the command and raw icon the loop
parsed, and as name the parsed name, or the base name of the file when the parsed
name is empty; the one signal is the insert for rows `[n, n]`. When the file
cannot be opened the list is unchanged and nothing is emitted or written. -/
theorem C14_addTile_appends_one_tile (tiles : List Tile) (path : QString)
    (lines : List QString) (x y : ℚ) :
    (∃ t : Tile,
      (TileModel.addTileFromDesktopFile tiles path (some lines) x y).items = tiles ++ [t] ∧
      t.desktopFile = path ∧ t.x = x ∧ t.y = y ∧ t.size = "medium".toList ∧
      t.command = (addTileParse lines).command ∧ t.icon = (addTileParse lines).icon ∧
      ((addTileParse lines).name ≠ [] → t.name = (addTileParse lines).name) ∧
      ((addTileParse lines).name = [] → t.name = baseName path)) ∧
    (TileModel.addTileFromDesktopFile tiles path (some lines) x y).items.length =
      tiles.length + 1 ∧
    (TileModel.addTileFromDesktopFile tiles path (some lines) x y).items.take tiles.length =
      tiles ∧
    (TileModel.addTileFromDesktopFile tiles path (some lines) x y).signals =
      [Signal.rowsInserted tiles.length tiles.length] ∧
    TileModel.addTileFromDesktopFile tiles path none x y = Outcome.unchanged tiles := by
  have hitems : (TileModel.addTileFromDesktopFile tiles path (some lines) x y).items =
      tiles ++ [tileFromScan (addTileParse lines) path x y] := rfl
  refine ⟨⟨tileFromScan (addTileParse lines) path x y, hitems, rfl, rfl, rfl, rfl, rfl, rfl,
    ?_, ?_⟩, ?_, ?_, rfl, rfl⟩
  · intro h
    have he : (addTileParse lines).name.isEmpty = false := by
      cases hn : (addTileParse lines).name with
      | nil => exact absurd hn h
      | cons c r => rfl
    simp only [tileFromScan, he, Bool.false_eq_true, if_false]
  · intro h
    simp only [tileFromScan, h, List.isEmpty_nil, if_true]
  · rw [hitems]
    simp
  · rw [hitems]
    simp

/-! ### C15: moving and resizing a tile -/

theorem getElem?_set_other {α : Type} (l : List α) (i j : Nat) (a : α) (h : j ≠ i) :
    (l.set i a)[j]? = l[j]? := by
  rw [List.getElem?_set]
  have : ¬ i = j := fun e => h e.symm
  simp [this]

/-- C15: for an index `i` in range, `updateTilePosition i x y` replaces tile `i` by
the same tile with coordinates `x`, `y`, and `resizeTile i s` by the same tile
with size `s`: every other field of tile `i`, every other tile and the length
and order of the list are unchanged; the one signal each emits is a data-changed
notification for row `i` alone with roles x and y, respectively size. -/
theorem C15_tile_update_frame (tiles : List Tile) (i : Nat) (hi : i < tiles.length)
    (x y : ℚ) (s : QString) :
    (∃ t : Tile, tiles[i]? = some t ∧
      (TileModel.updateTilePosition tiles i x y).items[i]? =
        some { name := t.name, icon := t.icon, desktopFile := t.desktopFile,
               command := t.command, x := x, y := y, size := t.size } ∧
      (TileModel.resizeTile tiles i s).items[i]? =
        some { name := t.name, icon := t.icon, desktopFile := t.desktopFile,
               command := t.command, x := t.x, y := t.y, size := s }) ∧
    (∀ j, j ≠ i → (TileModel.updateTilePosition tiles i x y).items[j]? = tiles[j]? ∧
      (TileModel.resizeTile tiles i s).items[j]? = tiles[j]?) ∧
    (TileModel.updateTilePosition tiles i x y).items.length = tiles.length ∧
    (TileModel.resizeTile tiles i s).items.length = tiles.length ∧
    (TileModel.updateTilePosition tiles i x y).signals =
      [Signal.dataChanged i i [Role.XRole, Role.YRole]] ∧
    (TileModel.resizeTile tiles i s).signals = [Signal.dataChanged i i [Role.SizeRole]] := by
  have hc : ¬ ((i : Int) < 0 ∨ (tiles.length : Int) ≤ (i : Int)) := by omega
  have hu : (TileModel.updateTilePosition tiles i x y).items =
      tiles.set i { tiles.get ⟨i, hi⟩ with x := x, y := y } := by
    simp only [TileModel.updateTilePosition, dif_neg hc, Outcome.mutated, Int.toNat_ofNat]
  have hr : (TileModel.resizeTile tiles i s).items =
      tiles.set i { tiles.get ⟨i, hi⟩ with size := s } := by
    simp only [TileModel.resizeTile, dif_neg hc, Outcome.mutated, Int.toNat_ofNat]
  have hus : (TileModel.updateTilePosition tiles i x y).signals =
      [Signal.dataChanged i i [Role.XRole, Role.YRole]] := by
    simp only [TileModel.updateTilePosition, dif_neg hc, Outcome.mutated]
  have hrs : (TileModel.resizeTile tiles i s).signals =
      [Signal.dataChanged i i [Role.SizeRole]] := by
    simp only [TileModel.resizeTile, dif_neg hc, Outcome.mutated]
  refine ⟨⟨tiles.get ⟨i, hi⟩, ?_, ?_, ?_⟩, ?_, ?_, ?_, hus, hrs⟩
  · simp [List.getElem?_eq_getElem hi]
  · rw [hu, List.getElem?_set_self hi]
  · rw [hr, List.getElem?_set_self hi]
  · intro j hj
    rw [hu, hr]
    exact ⟨getElem?_set_other _ _ _ _ hj, getElem?_set_other _ _ _ _ hj⟩
  · rw [hu, List.length_set]
  · rw [hr, List.length_set]

/-- C15 at a concrete store: moving its one tile to (3, 4) changes x and y only. -/
theorem C15_tile_update_frame_witness :
    0 < termTiles.length ∧
    (TileModel.updateTilePosition termTiles (0 : Nat) 3 4).signals =
      [Signal.dataChanged 0 0 [Role.XRole, Role.YRole]] :=
  ⟨by decide, (C15_tile_update_frame termTiles 0 (by decide) 3 4 []).2.2.2.2.1⟩

/-! ### C16: the order of icon resolution -/

theorem probeIconDirs_eq_find (fileExists : QString → Bool) (name placeholder : QString)
    (dirs : List QString) :
    probeIconDirs fileExists name placeholder dirs =
      match (iconCandidates name dirs).find? fileExists with
      | some p => "file://".toList ++ p
      | none => placeholder := by
  induction dirs with
  | nil => rfl
  | cons d rest ih =>
    simp only [probeIconDirs, iconCandidates, List.find?_cons]
    cases h1 : fileExists (d ++ name ++ ".png".toList) with
    | true => simp
    | false =>
      cases h2 : fileExists (d ++ name ++ ".svg".toList) with
      | true => simp
      | false => simpa using ih

theorem probeIconDirs_ne_nil (fileExists : QString → Bool) (name placeholder : QString)
    (dirs : List QString) (hp : placeholder ≠ []) :
    probeIconDirs fileExists name placeholder dirs ≠ [] := by
  rw [probeIconDirs_eq_find]
  cases (iconCandidates name dirs).find? fileExists with
  | none => exact hp
  | some p => simp

/-- C16: for a non-empty icon name, both `resolveIcon`s return `file://` + name when
a file exists at `name`, whatever else exists; otherwise `file://` + the first
existing path among the candidates `<dir><name>.png`, `<dir><name>.svg` taken
directory by directory in the order of the fixed list; otherwise their
placeholder resource. The result is never empty. -/
theorem C16_resolveIcon_order (fileExists : QString → Bool) (home name : QString)
    (hne : name ≠ []) :
    (fileExists name = true →
      AppLauncher.resolveIcon fileExists home name = "file://".toList ++ name ∧
      AppModel.resolveIcon fileExists home name = "file://".toList ++ name) ∧
    (fileExists name = false → ∀ p,
      (iconCandidates name (iconDirs home)).find? fileExists = some p →
      AppLauncher.resolveIcon fileExists home name = "file://".toList ++ p ∧
      AppModel.resolveIcon fileExists home name = "file://".toList ++ p) ∧
    (fileExists name = false →
      (iconCandidates name (iconDirs home)).find? fileExists = none →
      AppLauncher.resolveIcon fileExists home name = "qrc:/placeholder.svg".toList ∧
      AppModel.resolveIcon fileExists home name = "qrc:/icons/placeholder.svg".toList) ∧
    AppLauncher.resolveIcon fileExists home name ≠ [] ∧
    AppModel.resolveIcon fileExists home name ≠ [] := by
  have he : name.isEmpty = false := by
    cases name with
    | nil => exact absurd rfl hne
    | cons c r => rfl
  have hl : AppLauncher.resolveIcon fileExists home name =
      if fileExists name then "file://".toList ++ name
      else probeIconDirs fileExists name "qrc:/placeholder.svg".toList (iconDirs home) := by
    simp only [AppLauncher.resolveIcon, he, Bool.false_eq_true, if_false]
  have hm : AppModel.resolveIcon fileExists home name =
      if fileExists name then "file://".toList ++ name
      else probeIconDirs fileExists name "qrc:/icons/placeholder.svg".toList
        (iconDirs home) := rfl
  rw [hl, hm]
  refine ⟨?_, ?_, ?_, ?_, ?_⟩
  · intro h
    rw [if_pos h, if_pos h]
    exact ⟨rfl, rfl⟩
  · intro h p hp
    have hf : ¬ fileExists name = true := by rw [h]; exact Bool.false_ne_true
    rw [if_neg hf, if_neg hf, probeIconDirs_eq_find, probeIconDirs_eq_find, hp]
    exact ⟨rfl, rfl⟩
  · intro h hp
    have hf : ¬ fileExists name = true := by rw [h]; exact Bool.false_ne_true
    rw [if_neg hf, if_neg hf, probeIconDirs_eq_find, probeIconDirs_eq_find, hp]
    exact ⟨rfl, rfl⟩
  · split_ifs
    · simp
    · exact probeIconDirs_ne_nil _ _ _ _ (by decide)
  · split_ifs
    · simp
    · exact probeIconDirs_ne_nil _ _ _ _ (by decide)

/-- C16 at a concrete file system: with only the pixmap `app-new.png` present, the
name `app-new` resolves to that file, found in the sixth directory. -/
theorem C16_resolveIcon_order_witness :
    "app-new".toList ≠ [] ∧
    AppLauncher.resolveIcon onlyAppNewPixmap "/home/u".toList "app-new".toList =
      "file://".toList ++ "/usr/share/pixmaps/app-new.png".toList :=
  ⟨by decide,
   ((C16_resolveIcon_order onlyAppNewPixmap "/home/u".toList "app-new".toList
      (by decide)).2.1 (by decide) "/usr/share/pixmaps/app-new.png".toList (by decide)).1⟩

/-! ### C17: the taskbar parser and the action sections -/

/-- C17, the code at a failing input: `addDesktopFile` reads every line of the file
without following the section headers, so for a file whose main section has only
`Name=App` and whose `[Desktop Action New]` section has `Exec=` and `Icon=` lines,
the appended entry takes its exec and its icon from the action section; the
parser of the launcher menu leaves command and icon empty on the same file. -/
theorem C17_action_section_supplies_fields :
    (AppModel.addDesktopFile onlyAppNewPixmap "/home/u".toList [] (some actionDesktopFile)).items =
      [{ name := "App".toList, icon := "file:///usr/share/pixmaps/app-new.png".toList,
         exec := "app --new-window".toList }] ∧
    (addTileParse actionDesktopFile).command = [] ∧
    (addTileParse actionDesktopFile).icon = [] := by
  decide

/-! ### C18: activating and closing a window -/

/-- C18, the code at a failing input: with the helper found and its start failing,
`activate 0` on a list of one window starts the helper with `--activate` and the
id of the window and arms the 120 ms refresh timer all the same; `close 0` starts
it with `--close` and the id and arms no timer. Neither changes the list. -/
theorem C18_activate_refreshes_after_failed_start :
    (RunningWindowModel.activate oneWindow (some "/usr/bin/list-windows".toList) false 0).started =
      [("/usr/bin/list-windows".toList, ["--activate".toList, "w1".toList])] ∧
    (RunningWindowModel.activate oneWindow (some "/usr/bin/list-windows".toList) false 0).timers =
      [120] ∧
    (RunningWindowModel.activate oneWindow (some "/usr/bin/list-windows".toList) false 0).items =
      oneWindow ∧
    (RunningWindowModel.close oneWindow (some "/usr/bin/list-windows".toList) false 0).started =
      [("/usr/bin/list-windows".toList, ["--close".toList, "w1".toList])] ∧
    (RunningWindowModel.close oneWindow (some "/usr/bin/list-windows".toList) false 0).timers =
      [] ∧
    (RunningWindowModel.close oneWindow (some "/usr/bin/list-windows".toList) true 0).timers =
      [120] ∧
    (RunningWindowModel.close oneWindow (some "/usr/bin/list-windows".toList) false 0).items =
      oneWindow := by
  decide

/-! ### C19: the order of the catalog -/

theorem unitsLt_asymm : ∀ a b : List Nat, unitsLt a b = true → unitsLt b a = false
  | [], [], h => by simp [unitsLt] at h
  | [], _ :: _, _ => by simp [unitsLt]
  | _ :: _, [], h => by simp [unitsLt] at h
  | x :: s, y :: t, h => by
    simp only [unitsLt, Bool.or_eq_true, decide_eq_true_eq, Bool.and_eq_true, beq_iff_eq] at h
    simp only [unitsLt, Bool.or_eq_false_iff, decide_eq_false_iff_not, Bool.and_eq_false_imp,
      beq_iff_eq]
    rcases h with h | ⟨h1, h2⟩
    · exact ⟨by omega, fun e => by omega⟩
    · exact ⟨by omega, fun _ => unitsLt_asymm s t h2⟩

theorem unitsLt_negtrans : ∀ a b c : List Nat, unitsLt a c = true →
    unitsLt a b = true ∨ unitsLt b c = true
  | [], _, [], h => by simp [unitsLt] at h
  | [], [], _ :: _, _ => Or.inr (by simp [unitsLt])
  | [], _ :: _, _ :: _, _ => Or.inl (by simp [unitsLt])
  | _ :: _, _, [], h => by simp [unitsLt] at h
  | _ :: _, [], _ :: _, _ => Or.inr (by simp [unitsLt])
  | x :: s, y :: t, z :: u, h => by
    simp only [unitsLt, Bool.or_eq_true, decide_eq_true_eq, Bool.and_eq_true, beq_iff_eq] at h ⊢
    rcases h with h | ⟨h1, h2⟩
    · by_cases hxy : x < y
      · exact Or.inl (Or.inl hxy)
      · exact Or.inr (Or.inl (by omega))
    · by_cases hxy : x < y
      · exact Or.inl (Or.inl hxy)
      · by_cases hyx : y < x
        · exact Or.inr (Or.inl (by omega))
        · have e : x = y := by omega
          rcases unitsLt_negtrans s t u h2 with h3 | h3
          · exact Or.inl (Or.inr ⟨e, h3⟩)
          · exact Or.inr (Or.inr ⟨by omega, h3⟩)

theorem insertSorted_perm {α : Type} (lt : α → α → Bool) (a : α) (l : List α) :
    List.Perm (insertSorted lt a l) (a :: l) := by
  induction l with
  | nil => exact List.Perm.refl _
  | cons b rest ih =>
    simp only [insertSorted]
    split_ifs
    · exact (List.Perm.cons b ih).trans (List.Perm.swap a b rest)
    · exact List.Perm.refl _

theorem stdSort_perm {α : Type} (lt : α → α → Bool) (l : List α) :
    List.Perm (stdSort lt l) l := by
  induction l with
  | nil => exact List.Perm.refl _
  | cons a rest ih =>
    exact (insertSorted_perm lt a _).trans (List.Perm.cons a ih)

theorem insertSorted_pairwise {α : Type} (lt : α → α → Bool)
    (hasymm : ∀ a b, lt a b = true → lt b a = false)
    (hneg : ∀ a b c, lt a c = true → lt a b = true ∨ lt b c = true)
    (a : α) (l : List α) (hl : l.Pairwise (fun x y => lt y x = false)) :
    (insertSorted lt a l).Pairwise (fun x y => lt y x = false) := by
  induction l with
  | nil => simp [insertSorted]
  | cons b rest ih =>
    rw [List.pairwise_cons] at hl
    simp only [insertSorted]
    by_cases hb : lt b a = true
    · rw [if_pos hb, List.pairwise_cons]
      refine ⟨?_, ih hl.2⟩
      intro y hy
      rcases List.mem_cons.1 ((List.Perm.mem_iff (insertSorted_perm lt a rest)).1 hy) with
        e | hy'
      · rw [e]; exact hasymm b a hb
      · exact hl.1 y hy'
    · have hb' : lt b a = false := by simpa using hb
      rw [if_neg hb, List.pairwise_cons, List.pairwise_cons]
      refine ⟨?_, hl.1, hl.2⟩
      intro y hy
      rcases List.mem_cons.1 hy with e | hy'
      · rw [e]; exact hb'
      · cases hya : lt y a with
        | false => rfl
        | true =>
          rcases hneg y b a hya with h1 | h1
          · rw [hl.1 y hy'] at h1; cases h1
          · rw [hb'] at h1; cases h1

theorem stdSort_pairwise {α : Type} (lt : α → α → Bool)
    (hasymm : ∀ a b, lt a b = true → lt b a = false)
    (hneg : ∀ a b c, lt a c = true → lt a b = true ∨ lt b c = true) (l : List α) :
    (stdSort lt l).Pairwise (fun x y => lt y x = false) := by
  induction l with
  | nil => exact List.Pairwise.nil
  | cons a rest ih => exact insertSorted_pairwise lt hasymm hneg a _ ih

/-- C19: the list `listApplications` returns is a permutation of the entries
accepted by the scan (none lost, none duplicated), and the lower-cased names are
non-decreasing along it: no entry has a lower-cased name less than that of an
entry before it. The comparator is a strict weak ordering, as `std::sort`
requires. -/
theorem C19_listApplications_sorted_permutation (toLower : QString → QString)
    (fileExists : QString → Bool) (home : QString)
    (files : List (QString × Option (List QString))) :
    List.Perm (AppLauncher.listApplications toLower fileExists home files)
      (collectApplications toLower fileExists home files) ∧
    (AppLauncher.listApplications toLower fileExists home files).Pairwise
      (fun a b => qstringLt (toLower b.name) (toLower a.name) = false) ∧
    (∀ a b, nameLess toLower a b = true → nameLess toLower b a = false) ∧
    (∀ a b c, nameLess toLower a c = true →
      nameLess toLower a b = true ∨ nameLess toLower b c = true) := by
  have hasymm : ∀ a b, nameLess toLower a b = true → nameLess toLower b a = false :=
    fun a b h => unitsLt_asymm _ _ h
  have hneg : ∀ a b c, nameLess toLower a c = true →
      nameLess toLower a b = true ∨ nameLess toLower b c = true :=
    fun a b c h => unitsLt_negtrans _ _ _ h
  exact ⟨stdSort_perm _ _, stdSort_pairwise (nameLess toLower) hasymm hneg _, hasymm, hneg⟩

/-- C19 at a concrete scan: of the three files the hidden one is dropped and the
other two come out as Foo, Term although Term was scanned first. -/
theorem C19_listApplications_sorted_permutation_witness :
    List.Perm
      (AppLauncher.listApplications asciiToLower (fun _ => false) "/home/u".toList scannedFiles)
      (collectApplications asciiToLower (fun _ => false) "/home/u".toList scannedFiles) ∧
    (AppLauncher.listApplications asciiToLower (fun _ => false) "/home/u".toList
      scannedFiles).map AppRecord.name = ["Foo".toList, "Term".toList] ∧
    (collectApplications asciiToLower (fun _ => false) "/home/u".toList
      scannedFiles).map AppRecord.name = ["Term".toList, "Foo".toList] :=
  ⟨(C19_listApplications_sorted_permutation asciiToLower (fun _ => false) "/home/u".toList
      scannedFiles).1, by decide, by decide⟩

end LinWin10
